import Mathlib

/-!
# Verification of the deribit-data-downloader ingestion core

Shallow embedding of the Python sources in `src/deribit_data/`:
`models.py` (OptionTrade, DVOLCandle, CheckpointState), `storage.py`
(ParquetStorage.save_trades), `fetcher.py` (DeribitFetcher: _parse_instrument,
_parse_trade, _request_with_backoff, fetch_trades_streaming), `checkpoint.py`
(CheckpointManager) and `manifest.py` (ManifestManager).

Conventions of the embedding:
* epoch timestamps in milliseconds are `Nat`;
* Python floats are modelled as `ℚ` (the code performs no float-specific
  operations on them beyond comparison and division by 100);
* Python dict-backed JSON records become structures with `Option` fields,
  a missing field (KeyError) being `none`;
* fallible code returns `Option`;
* the filesystem is an association list from file name to content.
-/

namespace DeribitData

/-- Trade direction (`models.TradeDirection`). -/
inductive TradeDirection where
  | buy
  | sell
deriving DecidableEq, Repr

/-- `TradeDirection(value)` in Python: raises `ValueError` for any string other
than "buy"/"sell", modelled as `none`. -/
def TradeDirection.ofString (s : String) : Option TradeDirection :=
  if s = "buy" then some .buy
  else if s = "sell" then some .sell
  else none

/-- Option kind (`models.OptionType`). -/
inductive OptionType where
  | call
  | put
deriving DecidableEq, Repr

/-- A single parsed option trade (`models.OptionTrade`).  The `expiry`
datetime is represented by its calendar date `(year, month, day)`; the code
always sets the time-of-day part to 08:00 UTC. -/
structure OptionTrade where
  trade_id : String
  instrument_id : String
  timestampMs : Nat
  price : ℚ
  iv : Option ℚ
  amount : ℚ
  direction : TradeDirection
  underlying : String
  strike : ℚ
  expiry : Nat × Nat × Nat
  option_type : OptionType
  index_price : Option ℚ
  mark_price : Option ℚ
deriving DecidableEq, Repr

/-- Pydantic validation of `models.OptionTrade` (`price ≥ 0`,
`0 ≤ iv ≤ 5`, `amount > 0`, `strike > 0`, `index_price ≥ 0`,
`mark_price ≥ 0`, `underlying ∈ {BTC, ETH, SOL, USDC}`).  A violation raises
`pydantic.ValidationError` (a `ValueError`), modelled as `none`. -/
def mkOptionTrade (t : OptionTrade) : Option OptionTrade :=
  if 0 ≤ t.price
     ∧ (∀ v ∈ t.iv, 0 ≤ v ∧ v ≤ 5)
     ∧ 0 < t.amount
     ∧ 0 < t.strike
     ∧ (∀ v ∈ t.index_price, 0 ≤ v)
     ∧ (∀ v ∈ t.mark_price, 0 ≤ v)
     ∧ (t.underlying = "BTC" ∨ t.underlying = "ETH" ∨ t.underlying = "SOL"
        ∨ t.underlying = "USDC")
  then some t
  else none

/-- UTC calendar-day key of a trade: `timestamp.strftime("%Y-%m-%d")` on a UTC
datetime built from epoch milliseconds identifies the day `ms / 86400000`
(strings compare the same way the day numbers do). -/
def dayOf (t : OptionTrade) : Nat := t.timestampMs / 86400000

end DeribitData

namespace DeribitData

/-! ## ParquetStorage.save_trades (`storage.py`)

The on-disk catalog is modelled as an association list from
`(currency, day)` to the row list of that partition file.  The pandas
`sort_values("timestamp")` is modelled by a sort on the timestamp
(row order among equal timestamps is unspecified by the code; every
statement proved below is order-insensitive or fixes the order itself). -/

/-- Partitioned trade store: `(currency, day) ↦ rows of <currency>/trades/<day>.parquet`. -/
abbrev Store := List ((String × Nat) × List OptionTrade)

/-- Read a partition file, `none` when the file does not exist. -/
def Store.getPart (s : Store) (k : String × Nat) : Option (List OptionTrade) :=
  (s.find? (fun e => decide (e.1 = k))).map (·.2)

/-- (Re)write a partition file. -/
def Store.setPart (s : Store) (k : String × Nat) (v : List OptionTrade) : Store :=
  (k, v) :: s.filter (fun e => decide (e.1 ≠ k))

/-- `df.drop_duplicates(subset=["trade_id"], keep="last")`: keep only the last
occurrence of each `trade_id`, preserving the order of the kept rows. -/
def dedupKeepLast : List OptionTrade → List OptionTrade
  | [] => []
  | t :: ts =>
      if ts.any (fun u => u.trade_id = t.trade_id) then dedupKeepLast ts
      else t :: dedupKeepLast ts

/-- `df.sort_values("timestamp")` (ascending). -/
def sortByTs (l : List OptionTrade) : List OptionTrade :=
  l.insertionSort (fun a b => a.timestampMs ≤ b.timestampMs)

/-- The trades of `batch` that fall on day `d`, in batch order
(`by_date[date_key]` accumulates them by iteration order). -/
def groupOfDay (batch : List OptionTrade) (d : Nat) : List OptionTrade :=
  batch.filter (fun t => decide (dayOf t = d))

/-- The distinct days of a batch, in ascending order
(`sorted(by_date.items())`). -/
def touchedDays (batch : List OptionTrade) : List Nat :=
  ((batch.map dayOf).dedup).insertionSort (· ≤ ·)

/-- Writing one day partition: merge with the existing file when present
(concatenate, deduplicate by `trade_id` keeping the last occurrence, sort by
timestamp), otherwise write the day's rows as they are. -/
def savePartition (s : Store) (currency : String) (d : Nat)
    (group : List OptionTrade) : Store :=
  match s.getPart (currency, d) with
  | some existing =>
      s.setPart (currency, d) (sortByTs (dedupKeepLast (existing ++ group)))
  | none => s.setPart (currency, d) group

/-- Iterate `savePartition` over the day list. -/
def saveDays (currency : String) (batch : List OptionTrade) :
    Store → List Nat → Store
  | s, [] => s
  | s, d :: ds => saveDays currency batch (savePartition s currency d (groupOfDay batch d)) ds

/-- `ParquetStorage.save_trades(trades, currency)`. -/
def save_trades (s : Store) (batch : List OptionTrade) (currency : String) : Store :=
  if batch = [] then s
  else saveDays currency batch s (touchedDays batch)

/-- Fold `save_trades` over a sequence of batches (the caller's loop
`for batch in fetcher.fetch_trades_streaming(...): storage.save_trades(batch, currency)`). -/
def saveBatches (s : Store) (bs : List (List OptionTrade)) (currency : String) : Store :=
  bs.foldl (fun s b => save_trades s b currency) s

/-- Rows of a partition, `[]` when the file does not exist. -/
def partList (s : Store) (k : String × Nat) : List OptionTrade :=
  (s.getPart k).getD []

end DeribitData

namespace DeribitData

/-! ### Basic facts about the store operations -/

theorem getPart_setPart_same (s : Store) (k : String × Nat) (v : List OptionTrade) :
    (s.setPart k v).getPart k = some v := by
  simp [Store.setPart, Store.getPart, List.find?]

theorem find?_filter_ne (s : Store) (k k' : String × Nat) (h : k' ≠ k) :
    (s.filter (fun e => decide (e.1 ≠ k))).find? (fun e => decide (e.1 = k'))
      = s.find? (fun e => decide (e.1 = k')) := by
  induction s with
  | nil => rfl
  | cons e s ih =>
      by_cases he : e.1 = k
      · have h1 : ¬ e.1 = k' := by rw [he]; exact fun hc => h hc.symm
        rw [List.filter_cons_of_neg (by simp [he]), ih,
          List.find?_cons_of_neg _ (by simp [h1])]
      · rw [List.filter_cons_of_pos (by simp [he])]
        by_cases he' : e.1 = k'
        · rw [List.find?_cons_of_pos _ (by simp [he']),
            List.find?_cons_of_pos _ (by simp [he'])]
        · rw [List.find?_cons_of_neg _ (by simp [he']),
            List.find?_cons_of_neg _ (by simp [he']), ih]

theorem getPart_setPart_other (s : Store) (k k' : String × Nat) (v : List OptionTrade)
    (h : k' ≠ k) : (s.setPart k v).getPart k' = s.getPart k' := by
  have hne : ¬ k = k' := fun hc => h hc.symm
  unfold Store.setPart Store.getPart
  rw [List.find?_cons_of_neg _ (by simp [hne]), find?_filter_ne s k k' h]

/-! ### Facts about `dedupKeepLast` -/

/-- Shorthand for the trade identifiers of a row list. -/
def idsOf (l : List OptionTrade) : List String := l.map OptionTrade.trade_id

theorem mem_idsOf_dedupKeepLast (l : List OptionTrade) (i : String) :
    i ∈ idsOf (dedupKeepLast l) ↔ i ∈ idsOf l := by
  induction l with
  | nil => simp [dedupKeepLast]
  | cons t ts ih =>
      cases hany : ts.any (fun u => u.trade_id = t.trade_id) with
      | true =>
          have hstep : dedupKeepLast (t :: ts) = dedupKeepLast ts := by
            simp [dedupKeepLast, hany]
          rcases List.any_eq_true.1 hany with ⟨u, hu, hid⟩
          have hid' : u.trade_id = t.trade_id := of_decide_eq_true hid
          rw [hstep, ih]
          simp only [idsOf, List.map_cons, List.mem_cons]
          constructor
          · intro hm; exact Or.inr hm
          · rintro (rfl | hm)
            · exact List.mem_map.2 ⟨u, hu, hid'⟩
            · exact hm
      | false =>
          have hstep : dedupKeepLast (t :: ts) = t :: dedupKeepLast ts := by
            simp [dedupKeepLast, hany]
          rw [hstep]
          simp only [idsOf, List.map_cons, List.mem_cons]
          rw [show List.map OptionTrade.trade_id (dedupKeepLast ts)
              = idsOf (dedupKeepLast ts) from rfl, ih]
          exact Iff.rfl

theorem nodup_idsOf_dedupKeepLast (l : List OptionTrade) :
    (idsOf (dedupKeepLast l)).Nodup := by
  induction l with
  | nil => simp [dedupKeepLast, idsOf]
  | cons t ts ih =>
      cases hany : ts.any (fun u => u.trade_id = t.trade_id) with
      | true =>
          have hstep : dedupKeepLast (t :: ts) = dedupKeepLast ts := by
            simp [dedupKeepLast, hany]
          rw [hstep]; exact ih
      | false =>
          have hstep : dedupKeepLast (t :: ts) = t :: dedupKeepLast ts := by
            simp [dedupKeepLast, hany]
          rw [hstep]
          refine List.nodup_cons.2 ⟨?_, ih⟩
          intro hmem
          have hmem' : t.trade_id ∈ idsOf ts := (mem_idsOf_dedupKeepLast ts _).1 hmem
          rcases List.mem_map.1 hmem' with ⟨u, hu, hid⟩
          have hc : ts.any (fun u => u.trade_id = t.trade_id) = true :=
            List.any_eq_true.2 ⟨u, hu, decide_eq_true hid⟩
          rw [hany] at hc
          exact Bool.false_ne_true hc

theorem dedupKeepLast_eq_self (l : List OptionTrade) (h : (idsOf l).Nodup) :
    dedupKeepLast l = l := by
  induction l with
  | nil => rfl
  | cons t ts ih =>
      rcases List.nodup_cons.1 h with ⟨hni, hnd⟩
      have hany : ts.any (fun u => u.trade_id = t.trade_id) = false := by
        cases h2 : ts.any (fun u => u.trade_id = t.trade_id) with
        | false => rfl
        | true =>
            rcases List.any_eq_true.1 h2 with ⟨u, hu, hid⟩
            exact absurd (List.mem_map.2 ⟨u, hu, of_decide_eq_true hid⟩) hni
      simp [dedupKeepLast, hany, ih hnd]

theorem countP_id_eq_one (l : List OptionTrade) (i : String)
    (hnd : (idsOf l).Nodup) (hmem : i ∈ idsOf l) :
    l.countP (fun u => decide (u.trade_id = i)) = 1 := by
  induction l with
  | nil => simp [idsOf] at hmem
  | cons t ts ih =>
      rcases List.nodup_cons.1 hnd with ⟨hni, hnd'⟩
      by_cases ht : t.trade_id = i
      · have hnoti : i ∉ idsOf ts := ht ▸ hni
        have hz : ts.countP (fun u => decide (u.trade_id = i)) = 0 := by
          rw [List.countP_eq_zero]
          intro u hu hc
          exact hnoti (List.mem_map.2 ⟨u, hu, of_decide_eq_true hc⟩)
        simp [List.countP_cons, ht, hz]
      · have hmem' : i ∈ idsOf ts := by
          rcases List.mem_cons.1 hmem with hm | hm
          · exact absurd hm.symm ht
          · exact hm
        simp [List.countP_cons, ht, ih hnd' hmem']

/-! ### Characterisation of `save_trades` on a single partition -/

theorem nodup_touchedDays (b : List OptionTrade) : (touchedDays b).Nodup :=
  ((List.perm_insertionSort _ _).nodup_iff).2 (List.nodup_dedup _)

theorem mem_touchedDays (b : List OptionTrade) (d : Nat) :
    d ∈ touchedDays b ↔ groupOfDay b d ≠ [] := by
  unfold touchedDays groupOfDay
  rw [(List.perm_insertionSort _ _).mem_iff, List.mem_dedup, List.mem_map]
  constructor
  · rintro ⟨t, ht, rfl⟩ hc
    have := List.filter_eq_nil_iff.1 hc t ht
    simp at this
  · intro h
    rcases List.exists_mem_of_ne_nil _ h with ⟨t, ht⟩
    have hmem := List.mem_filter.1 ht
    exact ⟨t, hmem.1, of_decide_eq_true hmem.2⟩

theorem getPart_savePartition_other (s : Store) (cur : String) (d : Nat)
    (g : List OptionTrade) (k : String × Nat) (h : k ≠ (cur, d)) :
    (savePartition s cur d g).getPart k = s.getPart k := by
  unfold savePartition
  cases s.getPart (cur, d) with
  | none => exact getPart_setPart_other s (cur, d) k g h
  | some ex => exact getPart_setPart_other s (cur, d) k _ h

/-- The content written for one day by `savePartition`, as a function of the
previous partition content. -/
def mergedContent (prev : Option (List OptionTrade)) (g : List OptionTrade) :
    List OptionTrade :=
  match prev with
  | some ex => sortByTs (dedupKeepLast (ex ++ g))
  | none => g

theorem getPart_savePartition_same (s : Store) (cur : String) (d : Nat)
    (g : List OptionTrade) :
    (savePartition s cur d g).getPart (cur, d)
      = some (mergedContent (s.getPart (cur, d)) g) := by
  unfold savePartition mergedContent
  cases s.getPart (cur, d) with
  | none => exact getPart_setPart_same s (cur, d) g
  | some ex => exact getPart_setPart_same s (cur, d) _

theorem getPart_saveDays (cur : String) (b : List OptionTrade) (s : Store)
    (ds : List Nat) (hnd : ds.Nodup) (d : Nat) :
    (saveDays cur b s ds).getPart (cur, d)
      = if d ∈ ds
        then some (mergedContent (s.getPart (cur, d)) (groupOfDay b d))
        else s.getPart (cur, d) := by
  induction ds generalizing s with
  | nil => simp [saveDays]
  | cons d0 ds ih =>
      rcases List.nodup_cons.1 hnd with ⟨hd0, hnd'⟩
      by_cases hdd : d = d0
      · subst hdd
        have hnotin : d ∉ ds := hd0
        rw [saveDays, ih _ hnd', if_neg hnotin, getPart_savePartition_same,
          if_pos (List.mem_cons_self _ _)]
      · have hkey : ((cur, d) : String × Nat) ≠ (cur, d0) := by
          intro hc; exact hdd (congrArg Prod.snd hc)
        rw [saveDays, ih _ hnd']
        by_cases hds : d ∈ ds
        · rw [if_pos hds, if_pos (List.mem_cons_of_mem _ hds),
            getPart_savePartition_other _ _ _ _ _ hkey]
        · rw [if_neg hds, if_neg (by
            intro hc
            rcases List.mem_cons.1 hc with hc | hc
            · exact hdd hc
            · exact hds hc),
            getPart_savePartition_other _ _ _ _ _ hkey]

/-- Behaviour of `save_trades` on each partition: a day with no new rows is
untouched; a day with new rows is freshly written or merged. -/
theorem getPart_save_trades (s : Store) (b : List OptionTrade) (cur : String)
    (d : Nat) :
    (save_trades s b cur).getPart (cur, d)
      = if groupOfDay b d = [] then s.getPart (cur, d)
        else some (mergedContent (s.getPart (cur, d)) (groupOfDay b d)) := by
  unfold save_trades
  by_cases hb : b = []
  · subst hb
    simp [groupOfDay]
  · rw [if_neg hb, getPart_saveDays cur b s _ (nodup_touchedDays b) d]
    by_cases hg : groupOfDay b d = []
    · rw [if_neg (fun hc => (mem_touchedDays b d).1 hc hg), if_pos hg]
    · rw [if_pos ((mem_touchedDays b d).2 hg), if_neg hg]

end DeribitData

namespace DeribitData

theorem sortByTs_perm (l : List OptionTrade) : List.Perm (sortByTs l) l :=
  List.perm_insertionSort _ l

/-- C1.  Saving the same batch twice: the second save reads the partition
written by the first save, concatenates the new rows, deduplicates by trade
identifier keeping the last occurrence and sorts by timestamp; the resulting
partition holds each trade identifier at most once, and exactly one row for
every trade identifier of the batch on that day. -/
theorem save_trades_twice_dedup_idempotent (s : Store) (b : List OptionTrade)
    (cur : String) (d : Nat) (hd : groupOfDay b d ≠ []) :
    (save_trades (save_trades s b cur) b cur).getPart (cur, d)
        = some (sortByTs (dedupKeepLast
            (partList (save_trades s b cur) (cur, d) ++ groupOfDay b d)))
    ∧ (idsOf (partList (save_trades (save_trades s b cur) b cur) (cur, d))).Nodup
    ∧ ∀ t ∈ b, dayOf t = d →
        (partList (save_trades (save_trades s b cur) b cur) (cur, d)).countP
            (fun u => decide (u.trade_id = t.trade_id)) = 1 := by
  have h1 : (save_trades s b cur).getPart (cur, d)
      = some (mergedContent (s.getPart (cur, d)) (groupOfDay b d)) := by
    rw [getPart_save_trades, if_neg hd]
  have h2 : (save_trades (save_trades s b cur) b cur).getPart (cur, d)
      = some (sortByTs (dedupKeepLast
          (mergedContent (s.getPart (cur, d)) (groupOfDay b d) ++ groupOfDay b d))) := by
    rw [getPart_save_trades, if_neg hd, h1]
    rfl
  have hplist1 : partList (save_trades s b cur) (cur, d)
      = mergedContent (s.getPart (cur, d)) (groupOfDay b d) := by
    rw [partList, h1]; rfl
  have hplist2 : partList (save_trades (save_trades s b cur) b cur) (cur, d)
      = sortByTs (dedupKeepLast
          (mergedContent (s.getPart (cur, d)) (groupOfDay b d) ++ groupOfDay b d)) := by
    rw [partList, h2]; rfl
  refine ⟨by rw [h2, hplist1], ?_, ?_⟩
  · rw [hplist2]
    have hperm : List.Perm
        (idsOf (sortByTs (dedupKeepLast
          (mergedContent (s.getPart (cur, d)) (groupOfDay b d) ++ groupOfDay b d))))
        (idsOf (dedupKeepLast
          (mergedContent (s.getPart (cur, d)) (groupOfDay b d) ++ groupOfDay b d))) :=
      (sortByTs_perm _).map _
    exact hperm.nodup_iff.2 (nodup_idsOf_dedupKeepLast _)
  · intro t ht htd
    rw [hplist2]
    have hmemg : t ∈ groupOfDay b d :=
      List.mem_filter.2 ⟨ht, decide_eq_true htd⟩
    have hmemid : t.trade_id ∈ idsOf (dedupKeepLast
        (mergedContent (s.getPart (cur, d)) (groupOfDay b d) ++ groupOfDay b d)) := by
      rw [mem_idsOf_dedupKeepLast]
      exact List.mem_map.2 ⟨t, List.mem_append.2 (Or.inr hmemg), rfl⟩
    rw [(sortByTs_perm _).countP_eq]
    exact countP_id_eq_one _ _ (nodup_idsOf_dedupKeepLast _) hmemid

/-- Concrete trade used by the witnesses. -/
def wTrade (id : String) (ts : Nat) : OptionTrade :=
  { trade_id := id, instrument_id := "BTC-27DEC24-100-C", timestampMs := ts,
    price := 1, iv := none, amount := 1, direction := .buy, underlying := "BTC",
    strike := 100, expiry := (2024, 12, 27), option_type := .call,
    index_price := none, mark_price := none }

theorem save_trades_twice_dedup_idempotent_witness :
    groupOfDay [wTrade "a" 1000, wTrade "b" 500] 0 ≠ [] ∧
    ((save_trades (save_trades [] [wTrade "a" 1000, wTrade "b" 500] "BTC")
        [wTrade "a" 1000, wTrade "b" 500] "BTC").getPart ("BTC", 0)
        = some (sortByTs (dedupKeepLast
            (partList (save_trades [] [wTrade "a" 1000, wTrade "b" 500] "BTC") ("BTC", 0)
              ++ groupOfDay [wTrade "a" 1000, wTrade "b" 500] 0)))
    ∧ (idsOf (partList (save_trades (save_trades [] [wTrade "a" 1000, wTrade "b" 500] "BTC")
        [wTrade "a" 1000, wTrade "b" 500] "BTC") ("BTC", 0))).Nodup
    ∧ ∀ t ∈ [wTrade "a" 1000, wTrade "b" 500], dayOf t = 0 →
        (partList (save_trades (save_trades [] [wTrade "a" 1000, wTrade "b" 500] "BTC")
            [wTrade "a" 1000, wTrade "b" 500] "BTC") ("BTC", 0)).countP
            (fun u => decide (u.trade_id = t.trade_id)) = 1) :=
  ⟨by decide, save_trades_twice_dedup_idempotent [] _ "BTC" 0 (by decide)⟩

/-- C9.  A day partition that does not yet exist is written with the batch's
rows for that day exactly as supplied — no deduplication by trade identifier
and no sort by timestamp; the dedup/sort pipeline runs only on the merge path,
when the partition file already exists. -/
theorem save_trades_fresh_partition_as_is (s : Store) (b : List OptionTrade)
    (cur : String) (d : Nat) (hd : groupOfDay b d ≠ []) :
    (s.getPart (cur, d) = none →
      (save_trades s b cur).getPart (cur, d) = some (groupOfDay b d))
    ∧ ∀ ex, s.getPart (cur, d) = some ex →
        (save_trades s b cur).getPart (cur, d)
          = some (sortByTs (dedupKeepLast (ex ++ groupOfDay b d))) := by
  constructor
  · intro hnone
    rw [getPart_save_trades, if_neg hd, hnone]
    rfl
  · intro ex hex
    rw [getPart_save_trades, if_neg hd, hex]
    rfl

theorem save_trades_fresh_partition_as_is_witness :
    groupOfDay [wTrade "x" 1000, wTrade "x" 500] 0 ≠ [] ∧
    (Store.getPart [] ("BTC", 0) = none →
      (save_trades [] [wTrade "x" 1000, wTrade "x" 500] "BTC").getPart ("BTC", 0)
        = some (groupOfDay [wTrade "x" 1000, wTrade "x" 500] 0)) ∧
    (save_trades [] [wTrade "x" 1000, wTrade "x" 500] "BTC").getPart ("BTC", 0)
        = some [wTrade "x" 1000, wTrade "x" 500] :=
  ⟨by decide,
   (save_trades_fresh_partition_as_is [] [wTrade "x" 1000, wTrade "x" 500] "BTC" 0
     (by decide)).1,
   by decide⟩

end DeribitData

namespace DeribitData

/-! ## Generic association maps

Used to model directories (file name ↦ file content) and the in-memory
manifest (relative path ↦ entry). -/

section AMap

variable {κ ν : Type} [DecidableEq κ]

/-- Lookup in an association list. -/
def aget (m : List (κ × ν)) (k : κ) : Option ν :=
  (m.find? (fun e => decide (e.1 = k))).map (·.2)

/-- Insert or replace a binding. -/
def aset (m : List (κ × ν)) (k : κ) (v : ν) : List (κ × ν) :=
  (k, v) :: m.filter (fun e => decide (e.1 ≠ k))

/-- Delete a binding. -/
def adel (m : List (κ × ν)) (k : κ) : List (κ × ν) :=
  m.filter (fun e => decide (e.1 ≠ k))

theorem aget_aset_same (m : List (κ × ν)) (k : κ) (v : ν) :
    aget (aset m k v) k = some v := by
  simp [aset, aget, List.find?]

theorem afind_filter_ne (m : List (κ × ν)) (k k' : κ) (h : k' ≠ k) :
    (m.filter (fun e => decide (e.1 ≠ k))).find? (fun e => decide (e.1 = k'))
      = m.find? (fun e => decide (e.1 = k')) := by
  induction m with
  | nil => rfl
  | cons e m ih =>
      by_cases he : e.1 = k
      · have h1 : ¬ e.1 = k' := by rw [he]; exact fun hc => h hc.symm
        rw [List.filter_cons_of_neg (by simp [he]), ih,
          List.find?_cons_of_neg _ (by simp [h1])]
      · rw [List.filter_cons_of_pos (by simp [he])]
        by_cases he' : e.1 = k'
        · rw [List.find?_cons_of_pos _ (by simp [he']),
            List.find?_cons_of_pos _ (by simp [he'])]
        · rw [List.find?_cons_of_neg _ (by simp [he']),
            List.find?_cons_of_neg _ (by simp [he']), ih]

theorem aget_aset_other (m : List (κ × ν)) (k k' : κ) (v : ν) (h : k' ≠ k) :
    aget (aset m k v) k' = aget m k' := by
  have hne : ¬ k = k' := fun hc => h hc.symm
  unfold aset aget
  rw [List.find?_cons_of_neg _ (by simp [hne]), afind_filter_ne m k k' h]

theorem aget_adel_same (m : List (κ × ν)) (k : κ) : aget (adel m k) k = none := by
  unfold adel aget
  induction m with
  | nil => rfl
  | cons e m ih =>
      by_cases he : e.1 = k
      · rw [List.filter_cons_of_neg (by simp [he])]; exact ih
      · rw [List.filter_cons_of_pos (by simp [he]),
          List.find?_cons_of_neg _ (by simp [he])]
        exact ih

theorem aget_adel_other (m : List (κ × ν)) (k k' : κ) (h : k' ≠ k) :
    aget (adel m k) k' = aget m k' := by
  unfold adel aget
  rw [afind_filter_ne m k k' h]

/-- Lookup after filtering on a key predicate: a key the filter keeps looks
up unchanged, a key the filter drops is absent. -/
theorem aget_filter_keys (m : List (κ × ν)) (p : κ → Bool) (k : κ) :
    aget (m.filter (fun e => p e.1)) k
      = if p k = true then aget m k else none := by
  induction m with
  | nil => simp [aget]
  | cons e m ih =>
      by_cases hpe : p e.1 = true
      · rw [List.filter_cons_of_pos (by simpa using hpe)]
        by_cases hek : e.1 = k
        · subst hek
          unfold aget
          rw [List.find?_cons_of_pos _ (by simp), List.find?_cons_of_pos _ (by simp),
            if_pos hpe]
        · unfold aget
          rw [List.find?_cons_of_neg _ (by simp [hek]),
            List.find?_cons_of_neg _ (by simp [hek])]
          exact ih
      · rw [List.filter_cons_of_neg (by simpa using hpe)]
        by_cases hek : e.1 = k
        · subst hek
          rw [ih, if_neg hpe]
          unfold aget
          rw [List.find?_cons_of_pos _ (by simp)]
          by_cases hc : p e.1 = true
          · exact absurd hc hpe
          · rw [if_neg hpe]
        · unfold aget at ih ⊢
          rw [List.find?_cons_of_neg _ (by simp [hek])]
          exact ih

end AMap

end DeribitData

namespace DeribitData

/-! ## CheckpointState (`models.py`) and CheckpointManager (`checkpoint.py`)

`datetime.now(timezone.utc)` is a wall-clock reading; it is passed to the
embedded functions as an explicit `now` argument. -/

/-- `models.CheckpointState` (Python ints are `Int`; the two datetime fields
are epoch milliseconds). -/
structure CheckpointState where
  currency : String
  last_timestamp_ms : Int
  last_page : Int
  trades_fetched : Int
  started_at : Nat
  last_flush_at : Option Nat
  files_written : List String
deriving DecidableEq, Repr

/-- `CheckpointState.update_progress`: a new immutable state with the supplied
timestamp and page, the cumulative trade count, a fresh flush time, and the
written file appended if truthy and not already present. -/
def CheckpointState.update_progress (s : CheckpointState)
    (timestamp_ms page trades_count : Int) (file_written : Option String)
    (now : Nat) : CheckpointState :=
  let files :=
    match file_written with
    | some f => if f ≠ "" ∧ f ∉ s.files_written then s.files_written ++ [f]
                else s.files_written
    | none => s.files_written
  { currency := s.currency
    last_timestamp_ms := timestamp_ms
    last_page := page
    trades_fetched := s.trades_fetched + trades_count
    started_at := s.started_at
    last_flush_at := some now
    files_written := files }

/-- `CheckpointManager.create_initial`. -/
def create_initial (currency : String) (now : Nat) : CheckpointState :=
  { currency := currency, last_timestamp_ms := 0, last_page := 0,
    trades_fetched := 0, started_at := now, last_flush_at := none,
    files_written := [] }

/-- Argument tuple of one `update_progress` call. -/
structure UpdateArgs where
  timestamp_ms : Int
  page : Int
  trades_count : Int
  file_written : Option String
  now : Nat
deriving DecidableEq, Repr

/-- Apply one `update_progress` call. -/
def applyUpdate (s : CheckpointState) (u : UpdateArgs) : CheckpointState :=
  s.update_progress u.timestamp_ms u.page u.trades_count u.file_written u.now

/-- The successive states produced by a sequence of `update_progress` calls
(each saved in production order). -/
def statesFrom (s : CheckpointState) : List UpdateArgs → List CheckpointState
  | [] => []
  | u :: us => applyUpdate s u :: statesFrom (applyUpdate s u) us

/-- The callers' usage discipline: each call passes a timestamp at least the
state's current one and a non-negative trade count (`cli.py` passes the last
trade timestamp of an ascending-sorted batch and `len(batch)`). -/
def argsOK (s : CheckpointState) : List UpdateArgs → Bool
  | [] => true
  | u :: us =>
      (decide (s.last_timestamp_ms ≤ u.timestamp_ms)
        && decide (0 ≤ u.trades_count))
        && argsOK (applyUpdate s u) us

/-- C3 counterexample.  `update_progress` copies its `timestamp_ms` argument
unconditionally and adds `trades_count` signed, so a call sequence starting
from `create_initial` can produce successive saved states in which both
`last_timestamp_ms` and `trades_fetched` strictly decrease. -/
theorem checkpoint_monotonicity_counterexample :
    ((applyUpdate (applyUpdate (create_initial "BTC" 0) ⟨5, 1, 2, none, 10⟩)
        ⟨3, 2, -2, none, 20⟩).last_timestamp_ms
      < (applyUpdate (create_initial "BTC" 0) ⟨5, 1, 2, none, 10⟩).last_timestamp_ms)
    ∧ ((applyUpdate (applyUpdate (create_initial "BTC" 0) ⟨5, 1, 2, none, 10⟩)
        ⟨3, 2, -2, none, 20⟩).trades_fetched
      < (applyUpdate (create_initial "BTC" 0) ⟨5, 1, 2, none, 10⟩).trades_fetched) := by
  decide

/-- C3 (amended).  Under the callers' discipline — each `update_progress`
call passes a timestamp no smaller than the state's current
`last_timestamp_ms` and a non-negative `trades_count`, states saved in
production order — `last_timestamp_ms` and `trades_fetched` never decrease
from one saved state to the next, starting from `create_initial`. -/
theorem checkpoint_monotonic_of_argsOK (currency : String) (now : Nat)
    (us : List UpdateArgs) (h : argsOK (create_initial currency now) us = true) :
    List.Chain' (fun a b => a.last_timestamp_ms ≤ b.last_timestamp_ms
        ∧ a.trades_fetched ≤ b.trades_fetched)
      (create_initial currency now :: statesFrom (create_initial currency now) us) := by
  have main : ∀ (us : List UpdateArgs) (s : CheckpointState),
      argsOK s us = true →
      List.Chain' (fun a b => a.last_timestamp_ms ≤ b.last_timestamp_ms
          ∧ a.trades_fetched ≤ b.trades_fetched) (s :: statesFrom s us) := by
    intro us
    induction us with
    | nil => intro s _; simp [statesFrom]
    | cons u us ih =>
        intro s hOK
        rw [argsOK, Bool.and_eq_true, Bool.and_eq_true] at hOK
        rcases hOK with ⟨⟨hts, hcnt⟩, hrest⟩
        rw [statesFrom, List.chain'_cons]
        refine ⟨⟨of_decide_eq_true hts, ?_⟩, ih (applyUpdate s u) hrest⟩
        have : (0 : Int) ≤ u.trades_count := of_decide_eq_true hcnt
        simp only [applyUpdate, CheckpointState.update_progress]
        omega
  exact main us _ h

theorem checkpoint_monotonic_of_argsOK_witness :
    argsOK (create_initial "BTC" 0) [⟨5, 1, 2, none, 10⟩, ⟨7, 2, 0, none, 20⟩] = true
    ∧ List.Chain' (fun a b => a.last_timestamp_ms ≤ b.last_timestamp_ms
        ∧ a.trades_fetched ≤ b.trades_fetched)
      (create_initial "BTC" 0 :: statesFrom (create_initial "BTC" 0)
        [⟨5, 1, 2, none, 10⟩, ⟨7, 2, 0, none, 20⟩]) :=
  ⟨by decide, checkpoint_monotonic_of_argsOK "BTC" 0 _ (by decide)⟩

end DeribitData

namespace DeribitData

/-! ## CheckpointManager.save crash safety (`checkpoint.py`) -/

/-- A file system directory: file name ↦ file content. -/
abbrev FS := List (String × String)

/-- `self.checkpoint_dir / f"{currency.lower()}_checkpoint.json"`. -/
def checkpointFileName (currency : String) : String :=
  currency.toLower ++ "_checkpoint.json"

/-- `file_path.with_suffix(".tmp")` replaces the `.json` suffix. -/
def checkpointTmpName (currency : String) : String :=
  currency.toLower ++ "_checkpoint.tmp"

/-- `json.dumps` of the serialized state (`model_dump` with the two datetimes
in ISO form): any injective rendering of the fields; we use `toString` of the
field tuple. -/
def serializeCheckpoint (s : CheckpointState) : String :=
  toString (s.currency, s.last_timestamp_ms, s.last_page, s.trades_fetched,
    s.started_at, s.last_flush_at, s.files_written)

/-- How far `CheckpointManager.save` ran before the process stopped:
before the temp-file write, after it, or after the atomic rename. -/
inductive SaveCrash where
  | beforeTmpWrite
  | afterTmpWrite
  | completed
deriving DecidableEq, Repr

/-- `CheckpointManager.save(state)` stopped at `cp`: (1) write the serialized
state to the temp file, (2) rename the temp file onto the target. -/
def checkpointSaveUpTo (fs : FS) (st : CheckpointState) : SaveCrash → FS
  | .beforeTmpWrite => fs
  | .afterTmpWrite =>
      aset fs (checkpointTmpName st.currency) (serializeCheckpoint st)
  | .completed =>
      let fs1 := aset fs (checkpointTmpName st.currency) (serializeCheckpoint st)
      aset (adel fs1 (checkpointTmpName st.currency))
        (checkpointFileName st.currency) (serializeCheckpoint st)

/-- Does the file name end in `.tmp` (the `glob("*.tmp")` pattern)? -/
def hasTmpSuffix (n : String) : Bool :=
  ".tmp".data.isSuffixOf n.data

/-- `CheckpointManager._cleanup_stale_temps`, run on construction. -/
def cleanupStaleTemps (fs : FS) : FS :=
  fs.filter (fun e => ! hasTmpSuffix e.1)

theorem checkpointFileName_ne_tmpName (c : String) :
    checkpointFileName c ≠ checkpointTmpName c := by
  intro hc
  have hdata : (c.toLower ++ "_checkpoint.json").data
      = (c.toLower ++ "_checkpoint.tmp").data := congrArg String.data hc
  rw [String.data_append, String.data_append] at hdata
  have hlen := congrArg List.length hdata
  rw [List.length_append, List.length_append] at hlen
  have h16 : ("_checkpoint.json".data).length = 16 := rfl
  have h15 : ("_checkpoint.tmp".data).length = 15 := rfl
  rw [h16, h15] at hlen
  omega

theorem hasTmpSuffix_tmpName (c : String) :
    hasTmpSuffix (checkpointTmpName c) = true := by
  rw [hasTmpSuffix, List.isSuffixOf_iff_suffix, checkpointTmpName,
    String.data_append]
  exact List.IsSuffix.trans (by decide) (List.suffix_append _ _)

theorem hasTmpSuffix_fileName (c : String) :
    hasTmpSuffix (checkpointFileName c) = false := by
  cases hb : hasTmpSuffix (checkpointFileName c) with
  | false => rfl
  | true =>
      exfalso
      rw [hasTmpSuffix, List.isSuffixOf_iff_suffix] at hb
      rcases hb with ⟨t, ht⟩
      have hlast := congrArg List.getLast? ht
      rw [List.getLast?_append] at hlast
      have hdata : (checkpointFileName c).data
          = c.toLower.data ++ "_checkpoint.json".data := String.data_append _ _
      rw [hdata, List.getLast?_append] at hlast
      have e1 : ((".tmp".data).getLast?).or t.getLast? = some 'p' := rfl
      have e2 : (("_checkpoint.json".data).getLast?).or (c.toLower.data.getLast?)
          = some 'n' := rfl
      rw [e1, e2] at hlast
      exact absurd (Option.some.inj hlast) (by decide)

/-- C4.  Whatever point `CheckpointManager.save` stops at: the target
checkpoint file holds either its previous content or the complete new
serialized state (never a partial write); no file other than the target and
the temp file is touched; and on the next `CheckpointManager` construction
the stale temp file is removed while every non-`.tmp` file survives
unchanged. -/
theorem checkpoint_save_crash_safe (fs : FS) (st : CheckpointState)
    (cp : SaveCrash) :
    (aget (checkpointSaveUpTo fs st cp) (checkpointFileName st.currency)
        = aget fs (checkpointFileName st.currency)
      ∨ aget (checkpointSaveUpTo fs st cp) (checkpointFileName st.currency)
        = some (serializeCheckpoint st))
    ∧ (∀ n, n ≠ checkpointTmpName st.currency → n ≠ checkpointFileName st.currency →
        aget (checkpointSaveUpTo fs st cp) n = aget fs n)
    ∧ aget (cleanupStaleTemps (checkpointSaveUpTo fs st cp))
        (checkpointTmpName st.currency) = none
    ∧ ∀ n, hasTmpSuffix n = false →
        aget (cleanupStaleTemps (checkpointSaveUpTo fs st cp)) n
          = aget (checkpointSaveUpTo fs st cp) n := by
  have hne : checkpointFileName st.currency ≠ checkpointTmpName st.currency :=
    checkpointFileName_ne_tmpName st.currency
  have hclean : ∀ (g : FS),
      aget (cleanupStaleTemps g) (checkpointTmpName st.currency) = none := by
    intro g
    have h := aget_filter_keys g (fun k => ! hasTmpSuffix k)
      (checkpointTmpName st.currency)
    rw [if_neg (by simp [hasTmpSuffix_tmpName])] at h
    exact h
  have hkeep : ∀ (g : FS) (n : String), hasTmpSuffix n = false →
      aget (cleanupStaleTemps g) n = aget g n := by
    intro g n hn
    have h := aget_filter_keys g (fun k => ! hasTmpSuffix k) n
    rw [if_pos (by simp [hn])] at h
    exact h
  cases cp with
  | beforeTmpWrite =>
      exact ⟨Or.inl rfl, fun n _ _ => rfl, hclean fs, fun n hn => hkeep fs n hn⟩
  | afterTmpWrite =>
      refine ⟨Or.inl ?_, fun n hn1 _ => ?_, hclean _, fun n hn => hkeep _ n hn⟩
      · exact aget_aset_other _ _ _ _ hne
      · exact aget_aset_other _ _ _ _ hn1
  | completed =>
      refine ⟨Or.inr ?_, fun n hn1 hn2 => ?_, hclean _, fun n hn => hkeep _ n hn⟩
      · exact aget_aset_same _ _ _
      · rw [checkpointSaveUpTo]
        rw [aget_aset_other _ _ _ _ hn2, aget_adel_other _ _ _ hn1,
          aget_aset_other _ _ _ _ hn1]

theorem checkpoint_save_crash_safe_witness :
    (aget (checkpointSaveUpTo [("btc_checkpoint.json", "old"), ("x.tmp", "junk")]
        (create_initial "BTC" 0) .afterTmpWrite) (checkpointFileName "BTC")
        = aget [("btc_checkpoint.json", "old"), ("x.tmp", "junk")]
            (checkpointFileName "BTC")
      ∨ aget (checkpointSaveUpTo [("btc_checkpoint.json", "old"), ("x.tmp", "junk")]
        (create_initial "BTC" 0) .afterTmpWrite) (checkpointFileName "BTC")
        = some (serializeCheckpoint (create_initial "BTC" 0)))
    ∧ aget (cleanupStaleTemps (checkpointSaveUpTo
        [("btc_checkpoint.json", "old"), ("x.tmp", "junk")]
        (create_initial "BTC" 0) .afterTmpWrite)) (checkpointTmpName "BTC") = none
    ∧ aget (cleanupStaleTemps (checkpointSaveUpTo
        [("btc_checkpoint.json", "old"), ("x.tmp", "junk")]
        (create_initial "BTC" 0) .afterTmpWrite)) "btc_checkpoint.json"
        = aget (checkpointSaveUpTo
            [("btc_checkpoint.json", "old"), ("x.tmp", "junk")]
            (create_initial "BTC" 0) .afterTmpWrite) "btc_checkpoint.json" := by
  have h := checkpoint_save_crash_safe
    [("btc_checkpoint.json", "old"), ("x.tmp", "junk")]
    (create_initial "BTC" 0) .afterTmpWrite
  exact ⟨h.1, h.2.2.1, h.2.2.2 "btc_checkpoint.json" (by decide)⟩

end DeribitData

namespace DeribitData

/-! ## DVOLCandle (`models.py`) -/

/-- `models.DVOLCandle` (the `open` field is `open_` since `open` is a Lean
keyword). -/
structure DVOLCandle where
  timestampMs : Nat
  open_ : ℚ
  high : ℚ
  low : ℚ
  close : ℚ
deriving DecidableEq, Repr

/-- Pydantic construction of `models.DVOLCandle`.  Fields are validated in
declaration order (`timestamp`, `open`, `high`, `low`, `close`), each with its
`gt=0` bound.  The `high_gte_low` field validator runs while `high` is being
validated; at that moment `info.data` holds only the already-validated fields
`timestamp` and `open`, so its `"low" in info.data` guard is always false and
the `high ≥ low` comparison never runs. -/
def mkDVOLCandle (t : Nat) (o h l c : ℚ) : Option DVOLCandle :=
  if 0 < o then
    if 0 < h then
      -- field_validator("high"): "low" not in info.data, comparison skipped
      if 0 < l then
        if 0 < c then some ⟨t, o, h, l, c⟩ else none
      else none
    else none
  else none

/-- C8.  The code accepts a candle with `high < low`: the `high ≥ low`
validator is attached to the `high` field, which pydantic validates before
`low`, so its `"low" in info.data` guard never holds and the check is dead —
construction with `high = 1 < 2 = low` succeeds, contradicting the
validator's own docstring and error message. -/
theorem dvol_candle_high_lt_low_accepted :
    mkDVOLCandle 0 1 1 2 1 = some ⟨0, 1, 1, 2, 1⟩
    ∧ (mkDVOLCandle 0 1 1 2 1).all (fun cd => cd.high < cd.low) := by
  constructor
  · rfl
  · decide

end DeribitData

namespace DeribitData

/-! ## DeribitFetcher: instrument and trade parsing (`fetcher.py`) -/

/-- `[A-Z]`. -/
def isUpperChar (c : Char) : Bool := decide ('A' ≤ c ∧ c ≤ 'Z')

/-- `\d`. -/
def isDigitChar (c : Char) : Bool := decide ('0' ≤ c ∧ c ≤ '9')

/-- Decimal value of a digit group (`float(groups["strike"])` and the
`%d`/`%y` numbers of `strptime`). -/
def natOfDigits (cs : List Char) : Nat :=
  cs.foldl (fun a c => a * 10 + (c.toNat - 48)) 0

/-- `%b` of `strptime`: the C-locale month abbreviations (the regex has
already forced the three letters to be upper case). -/
def monthOfAbbrev (cs : List Char) : Option Nat :=
  if cs = "JAN".data then some 1
  else if cs = "FEB".data then some 2
  else if cs = "MAR".data then some 3
  else if cs = "APR".data then some 4
  else if cs = "MAY".data then some 5
  else if cs = "JUN".data then some 6
  else if cs = "JUL".data then some 7
  else if cs = "AUG".data then some 8
  else if cs = "SEP".data then some 9
  else if cs = "OCT".data then some 10
  else if cs = "NOV".data then some 11
  else if cs = "DEC".data then some 12
  else none

def isLeapYear (y : Nat) : Bool :=
  y % 4 == 0 && (y % 100 != 0 || y % 400 == 0)

def daysInMonth (y m : Nat) : Nat :=
  if m = 2 then (if isLeapYear y then 29 else 28)
  else if m = 4 ∨ m = 6 ∨ m = 9 ∨ m = 11 then 30
  else 31

/-- `%y` of `strptime`: 00–68 ↦ 2000+yy, 69–99 ↦ 1900+yy. -/
def yearOfTwoDigits (yy : Nat) : Nat :=
  if yy ≤ 68 then 2000 + yy else 1900 + yy

/-- The expiry group: the regex shape `\d{1,2}[A-Z]{3}\d{2}` followed by
`datetime.strptime(·, "%d%b%y")`, whose failure (unknown month, day outside
the month) is a `ValueError` making `_parse_instrument` return `None`.  The
result is the calendar date `(year, month, day)`; the code then fixes the
time of day to 08:00 UTC. -/
def parseExpiry (cs : List Char) : Option (Nat × Nat × Nat) :=
  let ds := cs.takeWhile isDigitChar
  let rest := cs.dropWhile isDigitChar
  if ds.length = 1 ∨ ds.length = 2 then
    let ms := rest.takeWhile isUpperChar
    let rest2 := rest.dropWhile isUpperChar
    if ms.length = 3 ∧ rest2.length = 2 ∧ rest2.all isDigitChar then
      match monthOfAbbrev ms with
      | some m =>
          let day := natOfDigits ds
          let y := yearOfTwoDigits (natOfDigits rest2)
          if 1 ≤ day ∧ day ≤ daysInMonth y m then some (y, m, day) else none
      | none => none
    else none
  else none

/-- Result of `_parse_instrument`. -/
structure InstrumentInfo where
  underlying : String
  expiry : Nat × Nat × Nat
  strike : ℚ
  option_type : OptionType
deriving DecidableEq, Repr

/-- Split a character list at dashes. -/
def splitDashes : List Char → List (List Char)
  | [] => [[]]
  | c :: cs =>
      if c = '-' then [] :: splitDashes cs
      else
        match splitDashes cs with
        | g :: gs => (c :: g) :: gs
        | [] => [[c]]

/-- `DeribitFetcher._parse_instrument`: the anchored pattern
`^([A-Z]+)-(\d{1,2}[A-Z]{3}\d{2})-(\d+)-([CP])$`.  None of the character
classes can match a dash, so a string matches exactly when it splits into
four dash-separated groups of the required shapes. -/
def parse_instrument (name : String) : Option InstrumentInfo :=
  match splitDashes name.data with
  | [u, e, k, t] =>
      if u ≠ [] ∧ u.all isUpperChar ∧ k ≠ [] ∧ k.all isDigitChar
          ∧ (t = ['C'] ∨ t = ['P']) then
        match parseExpiry e with
        | some ymd =>
            some { underlying := String.mk u, expiry := ymd,
                   strike := (natOfDigits k : ℚ),
                   option_type := if t = ['C'] then OptionType.call else OptionType.put }
        | none => none
      else none
  | _ => none

/-- A raw trade record of the API response (a JSON dict).  A missing key is
`none`.  `trade_id` can be a string or a number in the wire format; the
record stores the `str()` rendering used by the code. -/
structure RawTrade where
  instrument_name : Option String := none
  trade_id : Option String := none
  timestamp : Option Nat := none
  price : Option ℚ := none
  iv : Option ℚ := none
  amount : Option ℚ := none
  direction : Option String := none
  index_price : Option ℚ := none
  mark_price : Option ℚ := none
deriving DecidableEq, Repr

/-- `str(trade_data.get("trade_id", trade_data.get("timestamp", "")))`. -/
def rawTradeId (r : RawTrade) : String :=
  match r.trade_id with
  | some s => s
  | none =>
      match r.timestamp with
      | some ts => toString ts
      | none => ""

/-- `DeribitFetcher._parse_trade`: parse the instrument name, convert the
percentage `iv` (zero or absent becomes `None`), read the required fields
(`KeyError` on a missing one), construct the validated `OptionTrade`
(`ValueError`/`TypeError`/`ValidationError` are caught); every failure
returns `None`. -/
def parse_trade (r : RawTrade) : Option OptionTrade :=
  match parse_instrument (r.instrument_name.getD "") with
  | none => none
  | some parsed =>
      let ivDecimal : Option ℚ :=
        match r.iv with
        | some iv => if 0 < iv then some (iv / 100) else none
        | none => none
      match r.timestamp, r.price, r.amount, r.direction with
      | some ts, some p, some a, some dstr =>
          match TradeDirection.ofString dstr with
          | some dir =>
              mkOptionTrade
                { trade_id := rawTradeId r,
                  instrument_id := r.instrument_name.getD "",
                  timestampMs := ts, price := p, iv := ivDecimal, amount := a,
                  direction := dir, underlying := parsed.underlying,
                  strike := parsed.strike, expiry := parsed.expiry,
                  option_type := parsed.option_type,
                  index_price := r.index_price, mark_price := r.mark_price }
          | none => none
      | _, _, _, _ => none

/-- The per-page loop of `fetch_trades_streaming`: each record is parsed on
its own and appended to the batch when parsing succeeds. -/
def processPage (page : List RawTrade) : List OptionTrade :=
  page.filterMap parse_trade

end DeribitData

namespace DeribitData

/-- What a successful `_parse_trade` guarantees: the produced record carries
the fallback trade identifier and the raw instrument name, its instrument
identifier parses, every required field was present (and equals the stored
value), and the validated `amount` is positive. -/
theorem parse_trade_eq_some (r : RawTrade) (t : OptionTrade)
    (h : parse_trade r = some t) :
    t.trade_id = rawTradeId r
    ∧ t.instrument_id = r.instrument_name.getD ""
    ∧ parse_instrument t.instrument_id ≠ none
    ∧ r.timestamp = some t.timestampMs
    ∧ r.price = some t.price
    ∧ r.amount = some t.amount
    ∧ (∃ dstr, r.direction = some dstr)
    ∧ 0 < t.amount := by
  cases hpi : parse_instrument (r.instrument_name.getD "") with
  | none => simp [parse_trade, hpi] at h
  | some parsed =>
      cases hts : r.timestamp with
      | none => simp [parse_trade, hpi, hts] at h
      | some ts =>
          cases hp : r.price with
          | none => simp [parse_trade, hpi, hts, hp] at h
          | some p =>
              cases ha : r.amount with
              | none => simp [parse_trade, hpi, hts, hp, ha] at h
              | some a =>
                  cases hd : r.direction with
                  | none => simp [parse_trade, hpi, hts, hp, ha, hd] at h
                  | some dstr =>
                      cases hdir : TradeDirection.ofString dstr with
                      | none => simp [parse_trade, hpi, hts, hp, ha, hd, hdir] at h
                      | some dir =>
                          simp only [parse_trade, hpi, hts, hp, ha, hd, hdir] at h
                          unfold mkOptionTrade at h
                          split at h
                          · rename_i hcond
                            obtain rfl := Option.some.inj h
                            exact ⟨rfl, rfl, by simp [hpi], rfl, rfl, rfl,
                              ⟨dstr, rfl⟩, hcond.2.2.1⟩
                          · exact absurd h (by simp)

/-- C7.  A record with a malformed instrument identifier, a missing required
field, or a value failing a range check parses to nothing; a record that
parses to nothing never aborts its page — the other records are still parsed
and collected — and no trade with an unparsable instrument identifier is ever
produced. -/
theorem parse_failures_dropped_individually (r : RawTrade)
    (rs1 rs2 : List RawTrade) :
    (parse_instrument (r.instrument_name.getD "") = none → parse_trade r = none)
    ∧ (r.timestamp = none ∨ r.price = none ∨ r.amount = none ∨ r.direction = none →
        parse_trade r = none)
    ∧ (∀ a, r.amount = some a → a ≤ 0 → parse_trade r = none)
    ∧ (parse_trade r = none →
        processPage (rs1 ++ r :: rs2) = processPage rs1 ++ processPage rs2)
    ∧ (∀ t ∈ processPage (rs1 ++ r :: rs2), parse_instrument t.instrument_id ≠ none) := by
  refine ⟨?_, ?_, ?_, ?_, ?_⟩
  · intro h
    simp [parse_trade, h]
  · intro h
    cases hne : parse_trade r with
    | none => rfl
    | some t =>
        exfalso
        obtain ⟨-, -, -, hts, hp, ha, ⟨dstr, hd⟩, -⟩ := parse_trade_eq_some r t hne
        rcases h with h | h | h | h <;> simp_all
  · intro a haeq hle
    cases hne : parse_trade r with
    | none => rfl
    | some t =>
        exfalso
        obtain ⟨-, -, -, -, -, ha, -, hpos⟩ := parse_trade_eq_some r t hne
        rw [haeq] at ha
        obtain rfl := Option.some.inj ha
        exact absurd hpos (not_lt.2 hle)
  · intro h
    simp [processPage, List.filterMap_append, List.filterMap_cons, h]
  · intro t ht
    rcases List.mem_filterMap.1 ht with ⟨r', _, hr'⟩
    exact (parse_trade_eq_some r' t hr').2.2.1

/-- Raw records used by the parsing witnesses. -/
def wRawBad : RawTrade :=
  { instrument_name := some "XRP-1JAN25-3000-P", trade_id := some "bad",
    timestamp := some 1500, price := some 5, amount := some 2,
    direction := some "buy" }

def wRaw1 : RawTrade :=
  { instrument_name := some "ETH-1JAN25-3000-P", timestamp := some 1000,
    price := some 5, amount := some 2, direction := some "buy" }

def wRaw2 : RawTrade :=
  { instrument_name := some "ETH-1JAN25-3000-P", timestamp := some 1000,
    price := some 6, amount := some 3, direction := some "sell" }

theorem parse_failures_dropped_individually_witness :
    parse_trade wRawBad = none
    ∧ processPage ([wRaw1] ++ wRawBad :: [wRaw2])
        = processPage [wRaw1] ++ processPage [wRaw2]
    ∧ (processPage ([wRaw1] ++ wRawBad :: [wRaw2])).length = 2 :=
  ⟨by decide,
   (parse_failures_dropped_individually wRawBad [wRaw1] [wRaw2]).2.2.2.1 (by decide),
   by decide⟩

/-- C10.  When a raw record has no `trade_id`, `_parse_trade` uses the
record's timestamp rendered as a string as the identifier (and the empty
string when both are absent, though such a record never parses, the missing
timestamp being a required field); two id-less trades sharing a timestamp
therefore carry the same identifier, and saving them collapses them into a
single stored record under deduplication by trade identifier. -/
theorem trade_id_fallback_collapse (cur : String) (r1 r2 : RawTrade)
    (t1 t2 : OptionTrade) (ts : Nat)
    (h1 : parse_trade r1 = some t1) (h2 : parse_trade r2 = some t2)
    (hid1 : r1.trade_id = none) (hid2 : r2.trade_id = none)
    (hts1 : r1.timestamp = some ts) (hts2 : r2.timestamp = some ts) :
    t1.trade_id = toString ts
    ∧ t2.trade_id = toString ts
    ∧ (∀ r : RawTrade, r.trade_id = none → r.timestamp = none → rawTradeId r = "")
    ∧ (save_trades (save_trades [] [t1] cur) [t2] cur).getPart (cur, dayOf t1)
        = some [t2] := by
  obtain ⟨hti1, -, -, hrts1, -, -, -, -⟩ := parse_trade_eq_some r1 t1 h1
  obtain ⟨hti2, -, -, hrts2, -, -, -, -⟩ := parse_trade_eq_some r2 t2 h2
  have hms1 : t1.timestampMs = ts := by
    rw [hts1] at hrts1
    exact (Option.some.inj hrts1).symm
  have hms2 : t2.timestampMs = ts := by
    rw [hts2] at hrts2
    exact (Option.some.inj hrts2).symm
  have hid1' : t1.trade_id = toString ts := by
    rw [hti1, rawTradeId, hid1, hts1]
  have hid2' : t2.trade_id = toString ts := by
    rw [hti2, rawTradeId, hid2, hts2]
  refine ⟨hid1', hid2', ?_, ?_⟩
  · intro r hrid hrts
    rw [rawTradeId, hrid, hrts]
  · have hday : dayOf t2 = dayOf t1 := by
      rw [dayOf, dayOf, hms1, hms2]
    have hg1 : groupOfDay [t1] (dayOf t1) = [t1] := by
      simp [groupOfDay]
    have hg2 : groupOfDay [t2] (dayOf t1) = [t2] := by
      simp [groupOfDay, hday]
    have hS1 : (save_trades [] [t1] cur).getPart (cur, dayOf t1) = some [t1] := by
      rw [getPart_save_trades, hg1, if_neg (by simp)]
      rfl
    rw [getPart_save_trades, hg2, if_neg (by simp), hS1]
    have hidEq : t2.trade_id = t1.trade_id := by rw [hid1', hid2']
    have hdup : dedupKeepLast ([t1] ++ [t2]) = [t2] := by
      simp [dedupKeepLast, hidEq]
    show some (sortByTs (dedupKeepLast ([t1] ++ [t2]))) = some [t2]
    rw [hdup]
    rfl

/-- Trades parsed from the witness records. -/
def wT1 : OptionTrade :=
  { trade_id := "1000", instrument_id := "ETH-1JAN25-3000-P",
    timestampMs := 1000, price := 5, iv := none, amount := 2,
    direction := .buy, underlying := "ETH", strike := 3000,
    expiry := (2025, 1, 1), option_type := .put,
    index_price := none, mark_price := none }

def wT2 : OptionTrade :=
  { trade_id := "1000", instrument_id := "ETH-1JAN25-3000-P",
    timestampMs := 1000, price := 6, iv := none, amount := 3,
    direction := .sell, underlying := "ETH", strike := 3000,
    expiry := (2025, 1, 1), option_type := .put,
    index_price := none, mark_price := none }

def wRaw1NoId : RawTrade :=
  { instrument_name := some "ETH-1JAN25-3000-P", timestamp := some 1000,
    price := some 5, amount := some 2, direction := some "buy" }

def wRaw2NoId : RawTrade :=
  { instrument_name := some "ETH-1JAN25-3000-P", timestamp := some 1000,
    price := some 6, amount := some 3, direction := some "sell" }

theorem trade_id_fallback_collapse_witness :
    parse_trade wRaw1NoId = some wT1
    ∧ (wT1.trade_id = toString 1000
       ∧ wT2.trade_id = toString 1000
       ∧ (∀ r : RawTrade, r.trade_id = none → r.timestamp = none → rawTradeId r = "")
       ∧ (save_trades (save_trades [] [wT1] "ETH") [wT2] "ETH").getPart
           ("ETH", dayOf wT1) = some [wT2]) :=
  ⟨by decide,
   trade_id_fallback_collapse "ETH" wRaw1NoId wRaw2NoId wT1 wT2 1000
     (by decide) (by decide) (by decide) (by decide) (by decide) (by decide)⟩

end DeribitData

namespace DeribitData

/-! ## DeribitFetcher._request_with_backoff (`fetcher.py`)

The HTTP layer is a deterministic outcome per attempt index.  The function
returns the result together with the list of back-off sleeps it performed, in
order (`time.sleep` durations; the `_rate_limit` inter-request delay is a
separate mechanism and not part of this list). -/

/-- Retry configuration (`config.max_retries`, `config.backoff_base`). -/
structure RetryConfig where
  max_retries : Nat
  backoff_base : ℚ
deriving DecidableEq, Repr

/-- Outcome of one attempt: parsed JSON body, an HTTP error status raised by
`raise_for_status` (4xx/5xx), or a transport error (`httpx.RequestError`). -/
inductive HttpOutcome (α : Type) where
  | ok (body : α)
  | status (code : Nat)
  | transport
deriving DecidableEq, Repr

/-- How a `_request_with_backoff` call fails: the final
`RuntimeError("Max retries ... exceeded")`, or a non-retryable client error
propagated by the bare `raise`. -/
inductive ReqError where
  | maxRetries
  | clientError (code : Nat)
deriving DecidableEq, Repr

/-- The retry loop `for attempt in range(self.config.max_retries)`, with the
remaining iteration budget as fuel: on 429 sleep `base^(attempt+1)` and
retry; on a 5xx status or a transport error sleep `base^attempt` and retry;
re-raise any other status; after the loop raise `RuntimeError`. -/
def backoffAux {α : Type} (cfg : RetryConfig) (resp : Nat → HttpOutcome α) :
    Nat → Nat → Except ReqError α × List ℚ
  | 0, _ => (.error .maxRetries, [])
  | fuel + 1, attempt =>
      match resp attempt with
      | .ok v => (.ok v, [])
      | .status c =>
          if c = 429 then
            let r := backoffAux cfg resp fuel (attempt + 1)
            (r.1, cfg.backoff_base ^ (attempt + 1) :: r.2)
          else if 500 ≤ c then
            let r := backoffAux cfg resp fuel (attempt + 1)
            (r.1, cfg.backoff_base ^ attempt :: r.2)
          else (.error (.clientError c), [])
      | .transport =>
          let r := backoffAux cfg resp fuel (attempt + 1)
          (r.1, cfg.backoff_base ^ attempt :: r.2)

/-- `DeribitFetcher._request_with_backoff`. -/
def _request_with_backoff {α : Type} (cfg : RetryConfig)
    (resp : Nat → HttpOutcome α) : Except ReqError α × List ℚ :=
  backoffAux cfg resp cfg.max_retries 0

/-- Outcomes the loop retries after sleeping. -/
def retryable {α : Type} : HttpOutcome α → Bool
  | .ok _ => false
  | .status c => decide (c = 429) || decide (500 ≤ c)
  | .transport => true

/-- The sleep performed before retrying the given outcome at an attempt. -/
def sleepOf {α : Type} (base : ℚ) (attempt : Nat) : HttpOutcome α → ℚ
  | .status c => if c = 429 then base ^ (attempt + 1) else base ^ attempt
  | _ => base ^ attempt

theorem backoffAux_split {α : Type} (cfg : RetryConfig)
    (resp : Nat → HttpOutcome α) (i : Nat) :
    ∀ fuel attempt, i ≤ fuel →
      (∀ j, j < i → retryable (resp (attempt + j)) = true) →
      backoffAux cfg resp fuel attempt
        = ((backoffAux cfg resp (fuel - i) (attempt + i)).1,
           (List.range i).map
             (fun j => sleepOf cfg.backoff_base (attempt + j) (resp (attempt + j)))
             ++ (backoffAux cfg resp (fuel - i) (attempt + i)).2) := by
  induction i with
  | zero => intro fuel attempt _ _; simp
  | succ i ih =>
      intro fuel attempt hle hretry
      obtain ⟨f, rfl⟩ : ∃ f, fuel = f + 1 :=
        ⟨fuel - 1, by omega⟩
      have h0 : retryable (resp attempt) = true := by
        have := hretry 0 (Nat.succ_pos i)
        simpa using this
      have hstep : ∀ j, j < i → retryable (resp (attempt + 1 + j)) = true := by
        intro j hj
        have := hretry (j + 1) (by omega)
        have harith : attempt + (j + 1) = attempt + 1 + j := by omega
        rwa [harith] at this
      have hfi : i ≤ f := by omega
      have hrangemap : (List.range (i + 1)).map
            (fun j => sleepOf cfg.backoff_base (attempt + j) (resp (attempt + j)))
          = sleepOf cfg.backoff_base attempt (resp attempt)
            :: (List.range i).map
              (fun j => sleepOf cfg.backoff_base (attempt + 1 + j)
                (resp (attempt + 1 + j))) := by
        rw [List.range_succ_eq_map, List.map_cons, List.map_map]
        refine congrArg₂ _ (by simp) ?_
        refine List.map_congr_left ?_
        intro j _
        have harith : attempt + (j + 1) = attempt + 1 + j := by omega
        simp [Function.comp, harith]
      have harith2 : attempt + (i + 1) = attempt + 1 + i := by omega
      have harith3 : f + 1 - (i + 1) = f - i := by omega
      cases hresp : resp attempt with
      | ok v => rw [hresp] at h0; exact absurd h0 (by simp [retryable])
      | transport =>
          simp only [backoffAux, hresp]
          rw [ih f (attempt + 1) hfi hstep]
          rw [hrangemap, harith2, harith3, hresp]
          simp [sleepOf]
      | status c =>
          simp only [backoffAux, hresp]
          by_cases hc : c = 429
          · rw [if_pos hc]
            rw [ih f (attempt + 1) hfi hstep]
            rw [hrangemap, harith2, harith3, hresp]
            simp [sleepOf, hc]
          · have h5 : 500 ≤ c := by
              rw [hresp] at h0
              simp [retryable, hc] at h0
              exact h0
            rw [if_neg hc, if_pos h5]
            rw [ih f (attempt + 1) hfi hstep]
            rw [hrangemap, harith2, harith3, hresp]
            simp [sleepOf, hc]

end DeribitData

namespace DeribitData

/-- C6.  Behaviour of the retry loop once it reaches attempt `i` (all earlier
attempts having failed retryably): a 429 response sleeps `base^(i+1)`; a 5xx
or transport error sleeps `base^i`; any other HTTP error status propagates
immediately, with no sleep for attempt `i` and no further attempts; and if
every allowed attempt fails retryably the call raises the max-retries
error. -/
theorem request_with_backoff_spec {α : Type} (cfg : RetryConfig)
    (resp : Nat → HttpOutcome α) (i : Nat) (hi : i < cfg.max_retries)
    (hpre : ∀ j, j < i → retryable (resp j) = true) :
    (resp i = .status 429 →
      (_request_with_backoff cfg resp).2[i]? = some (cfg.backoff_base ^ (i + 1)))
    ∧ (∀ c, resp i = .status c → c ≠ 429 → 500 ≤ c →
      (_request_with_backoff cfg resp).2[i]? = some (cfg.backoff_base ^ i))
    ∧ (resp i = .transport →
      (_request_with_backoff cfg resp).2[i]? = some (cfg.backoff_base ^ i))
    ∧ (∀ c, resp i = .status c → c ≠ 429 → c < 500 →
      _request_with_backoff cfg resp
        = (.error (.clientError c),
           (List.range i).map (fun j => sleepOf cfg.backoff_base j (resp j))))
    ∧ ((∀ j, j < cfg.max_retries → retryable (resp j) = true) →
      (_request_with_backoff cfg resp).1 = .error .maxRetries) := by
  have hsplit := backoffAux_split cfg resp i cfg.max_retries 0 (le_of_lt hi)
    (by intro j hj; simpa using hpre j hj)
  simp only [Nat.zero_add] at hsplit
  have hreq : _request_with_backoff cfg resp
      = ((backoffAux cfg resp (cfg.max_retries - i) i).1,
         (List.range i).map (fun j => sleepOf cfg.backoff_base j (resp j))
           ++ (backoffAux cfg resp (cfg.max_retries - i) i).2) := hsplit
  obtain ⟨m, hm⟩ : ∃ m, cfg.max_retries - i = m + 1 := ⟨cfg.max_retries - i - 1, by omega⟩
  have hlen : ((List.range i).map
      (fun j => sleepOf cfg.backoff_base j (resp j))).length = i := by simp
  refine ⟨?_, ?_, ?_, ?_, ?_⟩
  · intro h429
    rw [hreq, hm]
    simp only [backoffAux, h429, if_pos rfl]
    rw [List.getElem?_append_right (by rw [hlen])]
    rw [hlen, Nat.sub_self]
    simp
  · intro c hc hne h5
    rw [hreq, hm]
    simp only [backoffAux, hc]
    rw [if_neg hne, if_pos h5]
    rw [List.getElem?_append_right (by rw [hlen])]
    rw [hlen, Nat.sub_self]
    simp
  · intro htr
    rw [hreq, hm]
    simp only [backoffAux, htr]
    rw [List.getElem?_append_right (by rw [hlen])]
    rw [hlen, Nat.sub_self]
    simp
  · intro c hc hne h5
    rw [hreq, hm]
    simp only [backoffAux, hc]
    rw [if_neg hne, if_neg (by omega)]
    simp
  · intro hall
    have hsplit2 := backoffAux_split cfg resp cfg.max_retries cfg.max_retries 0
      le_rfl (by intro j hj; simpa using hall j hj)
    simp only [Nat.zero_add, Nat.sub_self] at hsplit2
    rw [show _request_with_backoff cfg resp
        = backoffAux cfg resp cfg.max_retries 0 from rfl, hsplit2]
    rfl

/-- Concrete attempt outcomes for the back-off witness: a transport error,
then a 429, then success. -/
def wResp : Nat → HttpOutcome Nat :=
  fun j => if j = 0 then .transport else if j = 1 then .status 429 else .ok 7

theorem request_with_backoff_spec_witness :
    (1 < 3 ∧ (∀ j, j < 1 → retryable (wResp j) = true))
    ∧ (_request_with_backoff ⟨3, 2⟩ wResp).2[1]? = some ((2 : ℚ) ^ 2) :=
  ⟨⟨by decide, by decide⟩,
   (request_with_backoff_spec ⟨3, 2⟩ wResp 1 (by decide) (by decide)).1 (by decide)⟩

end DeribitData

namespace DeribitData

/-! ## ManifestManager (`manifest.py`)

Files are keyed by their path relative to the catalog root (the code stores
`str(file_path.relative_to(self.catalog_path))`).  The SHA-256 digest, the
Parquet row count and the timestamp-range extraction are parameters of the
embedding: the digest is an arbitrary injective function (collision
resistance idealised), and the two metadata readers are arbitrary (they do
not take part in verification). -/

/-- File contents as bytes. -/
abbrev Bytes := List Nat

/-- The data files under the catalog root, keyed by relative path. -/
abbrev DataFS := List (String × Bytes)

/-- `manifest.ManifestEntry`. -/
structure ManifestEntry where
  sha256 : Bytes
  size_bytes : Nat
  row_count : Nat
  timestamp_range : Option (String × String)
deriving DecidableEq, Repr

/-- The in-memory manifest dict `self._manifest`. -/
abbrev Manifest := List (String × ManifestEntry)

/-- `ManifestManager.update_file`: hash the file, record its size, row count
and timestamp range, and store the entry under the relative path; a missing
file makes `open` raise (`none`). -/
def update_file (sha : Bytes → Bytes) (rc : Bytes → Nat)
    (tr : Bytes → Option (String × String)) (m : Manifest) (fs : DataFS)
    (p : String) : Option Manifest :=
  match aget fs p with
  | some b => some (aset m p ⟨sha b, b.length, rc b, tr b⟩)
  | none => none

/-- `ManifestManager.save` followed by `_load` in a fresh manager: the whole
entry set is written as one sorted snapshot and read back into a dict. -/
def manifestSaveLoad (m : Manifest) : Manifest :=
  m.insertionSort (fun a b => a.1 ≤ b.1)

/-- `ManifestManager.verify_file`: false for a file not in the manifest,
false on a SHA-256 or size mismatch, true otherwise; a missing file makes
`open` raise (`none`). -/
def verify_file (sha : Bytes → Bytes) (m : Manifest) (fs : DataFS)
    (p : String) : Option Bool :=
  match aget m p with
  | none => some false
  | some e =>
      match aget fs p with
      | none => none
      | some b =>
          if sha b ≠ e.sha256 then some false
          else if b.length ≠ e.size_bytes then some false
          else some true

theorem aget_eq_some_iff_mem {κ ν : Type} [DecidableEq κ]
    (m : List (κ × ν)) (hnd : (m.map Prod.fst).Nodup) (k : κ) (v : ν) :
    aget m k = some v ↔ (k, v) ∈ m := by
  constructor
  · intro h
    rw [aget] at h
    cases hf : m.find? (fun e => decide (e.1 = k)) with
    | none => rw [hf] at h; simp at h
    | some e =>
        rw [hf] at h
        have hp := List.find?_some hf
        have hek : e.1 = k := of_decide_eq_true hp
        have hmem : e ∈ m := List.mem_of_find?_eq_some hf
        have hev : e.2 = v := by simpa using h
        have : (k, v) = e := by
          rw [← hek, ← hev]
        rw [this]
        exact hmem
  · intro hmem
    induction m with
    | nil => simp at hmem
    | cons e m ih =>
        rcases List.nodup_cons.1 (by simpa only [List.map_cons] using hnd)
          with ⟨hni, hnd'⟩
        rcases List.mem_cons.1 hmem with heq | hmem'
        · rw [aget, List.find?_cons_of_pos _ (by simp [← heq])]
          simp [← heq]
        · have hk : k ∈ m.map Prod.fst := List.mem_map.2 ⟨(k, v), hmem', rfl⟩
          have hek : ¬ e.1 = k := fun hc => hni (hc ▸ hk)
          rw [aget, List.find?_cons_of_neg _ (by simp [hek])]
          exact ih hnd' hmem'

theorem aget_eq_none_iff {κ ν : Type} [DecidableEq κ]
    (m : List (κ × ν)) (k : κ) :
    aget m k = none ↔ ∀ e ∈ m, e.1 ≠ k := by
  rw [aget, Option.map_eq_none', List.find?_eq_none]
  constructor
  · intro h e he
    have := h e he
    simpa using this
  · intro h e he
    simpa using h e he

theorem aget_perm {κ ν : Type} [DecidableEq κ]
    (m1 m2 : List (κ × ν)) (h : List.Perm m1 m2)
    (hnd : (m1.map Prod.fst).Nodup) (k : κ) : aget m1 k = aget m2 k := by
  have hnd2 : (m2.map Prod.fst).Nodup := ((h.map Prod.fst).nodup_iff).1 hnd
  cases hv : aget m1 k with
  | some v =>
      have hmem := (aget_eq_some_iff_mem m1 hnd k v).1 hv
      exact ((aget_eq_some_iff_mem m2 hnd2 k v).2 (h.mem_iff.1 hmem)).symm
  | none =>
      have hno := (aget_eq_none_iff m1 k).1 hv
      exact ((aget_eq_none_iff m2 k).2 (fun e he => hno e (h.mem_iff.2 he))).symm

theorem nodup_keys_aset {κ ν : Type} [DecidableEq κ]
    (m : List (κ × ν)) (k : κ) (v : ν) (hnd : (m.map Prod.fst).Nodup) :
    ((aset m k v).map Prod.fst).Nodup := by
  rw [aset, List.map_cons]
  refine List.nodup_cons.2 ⟨?_, ?_⟩
  · intro hmem
    rcases List.mem_map.1 hmem with ⟨e, he, hek⟩
    have := (List.mem_filter.1 he).2
    rw [hek] at this
    simp at this
  · exact ((List.filter_sublist m).map Prod.fst).nodup hnd

/-- C5.  `update_file` → `save` → reload in a fresh manager → `verify_file`
succeeds on the registered file; and after the bytes under the same relative
path change, `verify_file` fails. -/
theorem manifest_roundtrip_verify (sha : Bytes → Bytes)
    (hinj : Function.Injective sha) (rc : Bytes → Nat)
    (tr : Bytes → Option (String × String)) (m : Manifest)
    (hnd : (m.map Prod.fst).Nodup) (fs : DataFS) (p : String) (b : Bytes)
    (hb : aget fs p = some b) (m' : Manifest)
    (hupd : update_file sha rc tr m fs p = some m') :
    verify_file sha (manifestSaveLoad m') fs p = some true
    ∧ ∀ (fs2 : DataFS) (b2 : Bytes), aget fs2 p = some b2 → b2 ≠ b →
        verify_file sha (manifestSaveLoad m') fs2 p = some false := by
  rw [update_file, hb] at hupd
  obtain rfl := (Option.some.inj hupd).symm
  have hnd' : ((aset m p (⟨sha b, b.length, rc b, tr b⟩ : ManifestEntry)).map
      Prod.fst).Nodup := nodup_keys_aset m p _ hnd
  have hgetm' : aget (manifestSaveLoad
      (aset m p (⟨sha b, b.length, rc b, tr b⟩ : ManifestEntry))) p
      = some ⟨sha b, b.length, rc b, tr b⟩ := by
    unfold manifestSaveLoad
    rw [← aget_perm _ _ (List.perm_insertionSort _ _).symm hnd' p]
    exact aget_aset_same m p _
  constructor
  · simp [verify_file, hgetm', hb]
  · intro fs2 b2 hb2 hne
    simp only [verify_file, hgetm', hb2]
    have hshane : sha b2 ≠ sha b := fun hc => hne (hinj hc)
    rw [if_pos (by simpa using hshane)]

theorem manifest_roundtrip_verify_witness :
    aget [("BTC/trades/2024-01-01.parquet", ([1, 2, 3] : Bytes))]
        "BTC/trades/2024-01-01.parquet" = some [1, 2, 3]
    ∧ (verify_file id (manifestSaveLoad (aset [] "BTC/trades/2024-01-01.parquet"
        (⟨[1, 2, 3], 3, 0, none⟩ : ManifestEntry)))
        [("BTC/trades/2024-01-01.parquet", [1, 2, 3])]
        "BTC/trades/2024-01-01.parquet" = some true
      ∧ ∀ (fs2 : DataFS) (b2 : Bytes),
          aget fs2 "BTC/trades/2024-01-01.parquet" = some b2 → b2 ≠ [1, 2, 3] →
          verify_file id (manifestSaveLoad (aset [] "BTC/trades/2024-01-01.parquet"
            (⟨[1, 2, 3], 3, 0, none⟩ : ManifestEntry))) fs2
            "BTC/trades/2024-01-01.parquet" = some false) :=
  ⟨by decide,
   manifest_roundtrip_verify id (fun _ _ h => h) (fun _ => 0) (fun _ => none)
     [] (by decide) [("BTC/trades/2024-01-01.parquet", [1, 2, 3])]
     "BTC/trades/2024-01-01.parquet" [1, 2, 3] (by decide) _ rfl⟩

end DeribitData

namespace DeribitData

/-! ## DeribitFetcher.fetch_trades_streaming (`fetcher.py`)

The remote endpoint is a deterministic response stream: a fixed list of raw
trade records held by the server, which answers
`get_last_trades_by_currency(start_timestamp, end_timestamp, count,
sorting=asc)` with the first `count` records of the requested range and a
`has_more` flag.  The page loop is embedded with the remaining-iteration
budget as fuel; the `page > max_pages` break bounds the loop by
`max_pages + 1` iterations, so the fuel `max_pages + 2` used below is never
exhausted. -/

/-- The fetch-loop configuration (`config.batch_size`, `config.max_pages`,
`config.flush_every_pages`). -/
structure FetchConfig where
  batch_size : Nat
  max_pages : Nat
  flush_every_pages : Nat
deriving DecidableEq, Repr

instance : Inhabited RawTrade := ⟨{}⟩

/-- `trade_data.get("timestamp", 0)` — the pagination timestamp of a raw
record. -/
def rts (r : RawTrade) : Nat := r.timestamp.getD 0

/-- One API page: the first `cnt` in-range records and the `has_more` flag. -/
def apiPage (db : List RawTrade) (cnt startTs endTs : Nat) :
    List RawTrade × Bool :=
  let inR := db.filter (fun r => decide (startTs ≤ rts r) && decide (rts r ≤ endTs))
  (inR.take cnt, decide (cnt < inR.length))

/-- The in-range portion of the stream. -/
def inRange (db : List RawTrade) (startTs endTs : Nat) : List RawTrade :=
  db.filter (fun r => decide (startTs ≤ rts r) && decide (rts r ≤ endTs))

/-- `trades_data[-1]`. -/
def lastRaw (tds : List RawTrade) : RawTrade := (tds.getLast?).getD default

/-- The `while has_more` loop of `fetch_trades_streaming`: fetch a page,
break on an empty page, parse each record individually, advance the lower
bound to the page's last raw timestamp + 1, yield the accumulated batch every
`flush_every_pages` pages, stop at the `max_pages` safety ceiling, and yield
whatever remains after the loop. -/
def fetchLoop (cfg : FetchConfig) (db : List RawTrade) (endTs : Nat) :
    Nat → Nat → Nat → List OptionTrade → List (List OptionTrade)
  | 0, _, _, batch => if batch ≠ [] then [batch] else []
  | fuel + 1, startTs, page, batch =>
      let pr := apiPage db cfg.batch_size startTs endTs
      if pr.1 = [] then (if batch ≠ [] then [batch] else [])
      else
        let batch1 := batch ++ processPage pr.1
        let startTs1 := if pr.2 then rts (lastRaw pr.1) + 1 else startTs
        let page1 := page + 1
        let yb :=
          if page1 % cfg.flush_every_pages = 0 ∧ batch1 ≠ [] then ([batch1], [])
          else (([] : List (List OptionTrade)), batch1)
        if cfg.max_pages < page1 then
          yb.1 ++ (if yb.2 ≠ [] then [yb.2] else [])
        else if pr.2 then
          yb.1 ++ fetchLoop cfg db endTs fuel startTs1 page1 yb.2
        else
          yb.1 ++ (if yb.2 ≠ [] then [yb.2] else [])

/-- `DeribitFetcher.fetch_trades_streaming` (timestamps in epoch
milliseconds).  A truthy `resume_from_ms` greater than the range start moves
the start to `resume_from_ms + 1`. -/
def fetch_trades_streaming (cfg : FetchConfig) (db : List RawTrade)
    (startTs endTs : Nat) (resumeFromMs : Option Nat) :
    List (List OptionTrade) :=
  let start :=
    match resumeFromMs with
    | some r => if r ≠ 0 ∧ startTs < r then r + 1 else startTs
    | none => startTs
  fetchLoop cfg db endTs (cfg.max_pages + 2) start 0 []

end DeribitData

namespace DeribitData

/-! ### Pagination over a strictly ascending stream -/

theorem filter_gt_of_pairwise (l : List RawTrade)
    (hl : l.Pairwise (fun a b => rts a < rts b)) :
    ∀ (n : Nat) (t : RawTrade), l[n]? = some t →
      l.filter (fun r => decide (rts t < rts r)) = l.drop (n + 1) := by
  induction l with
  | nil => intro n t h; simp at h
  | cons x xs ih =>
      intro n t h
      rcases List.pairwise_cons.1 hl with ⟨hx, hxs⟩
      cases n with
      | zero =>
          obtain rfl : x = t := by simpa using h
          rw [List.filter_cons_of_neg (by simp)]
          rw [List.drop_succ_cons, List.drop_zero]
          exact List.filter_eq_self.2
            (fun y hy => decide_eq_true (hx y hy))
      | succ n =>
          have hmem : t ∈ xs := List.getElem?_mem (by simpa using h)
          have hxt : rts x < rts t := hx t hmem
          rw [List.filter_cons_of_neg (by simp [Nat.lt_asymm hxt])]
          rw [List.drop_succ_cons]
          exact ih hxs n t (by simpa using h)

theorem processPage_ts (I : List RawTrade) (t : OptionTrade)
    (h : t ∈ processPage I) : ∃ r ∈ I, rts r = t.timestampMs := by
  rcases List.mem_filterMap.1 h with ⟨r, hr, hparse⟩
  refine ⟨r, hr, ?_⟩
  have := (parse_trade_eq_some r t hparse).2.2.2.1
  rw [rts, this]
  rfl

/-- Resuming at one past the timestamp of the `m`-th parsed record of a
strictly ascending stream re-parses exactly the records after it. -/
theorem processPage_filter_gt (I : List RawTrade)
    (hI : I.Pairwise (fun a b => rts a < rts b)) :
    ∀ (m : Nat) (tl : OptionTrade), 1 ≤ m →
      ((processPage I).take m).getLast? = some tl →
      processPage (I.filter (fun r => decide (tl.timestampMs < rts r)))
        = (processPage I).drop m := by
  induction I with
  | nil => intro m tl _ h; simp [processPage] at h
  | cons r I' ih =>
      intro m tl hm hlast
      rcases List.pairwise_cons.1 hI with ⟨hr, hI'⟩
      cases hparse : parse_trade r with
      | none =>
          have hpp : processPage (r :: I') = processPage I' := by
            simp [processPage, List.filterMap_cons, hparse]
          rw [hpp] at hlast
          have htl_mem : tl ∈ processPage I' :=
            List.mem_of_mem_take (List.mem_of_mem_getLast? hlast)
          obtain ⟨r', hr'mem, hr'ts⟩ := processPage_ts I' tl htl_mem
          have hlt : rts r < tl.timestampMs := hr'ts ▸ hr r' hr'mem
          rw [List.filter_cons_of_neg (by simp [Nat.lt_asymm hlt])]
          rw [hpp]
          exact ih hI' m tl hm hlast
      | some t =>
          have hpp : processPage (r :: I') = t :: processPage I' := by
            simp [processPage, List.filterMap_cons, hparse]
          have hts : t.timestampMs = rts r := by
            have := (parse_trade_eq_some r t hparse).2.2.2.1
            rw [rts, this]
            rfl
          obtain ⟨m', rfl⟩ : ∃ m', m = m' + 1 := ⟨m - 1, by omega⟩
          rw [hpp] at hlast
          rw [List.take_succ_cons] at hlast
          rw [hpp, List.drop_succ_cons]
          rcases Nat.eq_zero_or_pos m' with hz | hpos
      -- m = 1: the checkpoint is this page head; everything after it is kept
          · subst hz
            have htl : tl = t := by simpa using hlast.symm
            rw [List.filter_cons_of_neg (by simp [htl, hts])]
            rw [List.drop_zero]
            show (I'.filter (fun x => decide (tl.timestampMs < rts x))).filterMap
                parse_trade = processPage I'
            rw [List.filter_eq_self.2 (fun y hy => by
              have : rts r < rts y := hr y hy
              rw [htl, hts]
              exact decide_eq_true this)]
            rfl
          · by_cases hm' : (processPage I').take m' = []
            · have hLnil : processPage I' = [] := by
                rcases List.take_eq_nil_iff.1 hm' with h0 | hnil
                · omega
                · exact hnil
              have htl : tl = t := by
                rw [hm'] at hlast
                simpa using hlast.symm
              rw [List.filter_cons_of_neg (by simp [htl, hts])]
              have hsub : List.Sublist
                  ((I'.filter (fun x => decide (tl.timestampMs < rts x))).filterMap
                    parse_trade)
                  (I'.filterMap parse_trade) :=
                (List.filter_sublist I').filterMap parse_trade
              rw [show I'.filterMap parse_trade = processPage I' from rfl, hLnil]
                at hsub
              rw [hLnil]
              show (I'.filter (fun x => decide (tl.timestampMs < rts x))).filterMap
                  parse_trade = List.drop m' []
              rw [List.sublist_nil.1 hsub, List.drop_nil]
            · have hlast' : ((processPage I').take m').getLast? = some tl := by
                rcases List.exists_cons_of_ne_nil hm' with ⟨y, ys, hy⟩
                rw [hy] at hlast ⊢
                rw [List.getLast?_cons_cons] at hlast
                exact hlast
              have htl_mem : tl ∈ processPage I' :=
                List.mem_of_mem_take (List.mem_of_mem_getLast? hlast')
              obtain ⟨r', hr'mem, hr'ts⟩ := processPage_ts I' tl htl_mem
              have hlt : rts r < tl.timestampMs := hr'ts ▸ hr r' hr'mem
              rw [List.filter_cons_of_neg (by simp [Nat.lt_asymm hlt])]
              exact ih hI' m' tl hpos hlast'

end DeribitData

namespace DeribitData

theorem inRange_pairwise (db : List RawTrade) (lo hi : Nat)
    (hdb : db.Pairwise (fun a b => rts a < rts b)) :
    (inRange db lo hi).Pairwise (fun a b => rts a < rts b) :=
  hdb.sublist (List.filter_sublist db)

/-- After a full page with `has_more`, restarting the range at the page's
last raw timestamp + 1 selects exactly the remaining in-range records. -/
theorem inRange_advance (db : List RawTrade) (lo hi cnt : Nat)
    (hdb : db.Pairwise (fun a b => rts a < rts b)) (hcnt : 0 < cnt)
    (hlt : cnt < (inRange db lo hi).length) :
    inRange db (rts (lastRaw ((inRange db lo hi).take cnt)) + 1) hi
      = (inRange db lo hi).drop cnt := by
  have hIp := inRange_pairwise db lo hi hdb
  have hlen : ((inRange db lo hi).take cnt).length = cnt := by
    rw [List.length_take]
    omega
  obtain ⟨t, ht⟩ : ∃ t, (inRange db lo hi)[cnt - 1]? = some t :=
    ⟨(inRange db lo hi).get ⟨cnt - 1, by omega⟩,
     List.getElem?_eq_getElem (by omega)⟩
  have hlast : lastRaw ((inRange db lo hi).take cnt) = t := by
    rw [lastRaw, List.getLast?_eq_getElem?, hlen, List.getElem?_take,
      if_pos (by omega), ht]
    rfl
  have htmem : t ∈ inRange db lo hi := List.getElem?_mem ht
  have htpred := (List.mem_filter.1 htmem).2
  rw [Bool.and_eq_true] at htpred
  have hlo : lo ≤ rts t := of_decide_eq_true htpred.1
  have hhi : rts t ≤ hi := of_decide_eq_true htpred.2
  rw [hlast]
  have hfilter : inRange db (rts t + 1) hi
      = (inRange db lo hi).filter (fun r => decide (rts t < rts r)) := by
    rw [inRange, inRange, List.filter_filter]
    refine List.filter_congr ?_
    intro a _
    rw [Bool.eq_iff_iff, Bool.and_eq_true, Bool.and_eq_true, Bool.and_eq_true]
    simp only [decide_eq_true_eq]
    omega
  rw [hfilter]
  have := filter_gt_of_pairwise (inRange db lo hi) hIp (cnt - 1) t ht
  rw [this]
  congr 1
  omega

end DeribitData

namespace DeribitData

/-- The concatenation of all yielded batches: as long as the page budget
covers the range, the loop parses exactly the in-range records, whatever the
flush grouping does. -/
theorem fetchLoop_join (cfg : FetchConfig) (db : List RawTrade) (endTs : Nat)
    (hdb : db.Pairwise (fun a b => rts a < rts b)) (hcnt : 0 < cfg.batch_size) :
    ∀ (fuel startTs page : Nat) (batch : List OptionTrade),
      (inRange db startTs endTs).length ≤ cfg.batch_size * fuel →
      (inRange db startTs endTs).length
        ≤ cfg.batch_size * (cfg.max_pages - page) →
      (fetchLoop cfg db endTs fuel startTs page batch).flatten
        = batch ++ processPage (inRange db startTs endTs) := by
  intro fuel
  induction fuel with
  | zero =>
      intro startTs page batch h1 _
      have hI : inRange db startTs endTs = [] := by
        rw [← List.length_eq_zero]
        omega
      rw [hI]
      by_cases hb : batch = []
      · subst hb; simp [fetchLoop, processPage]
      · simp [fetchLoop, hb, processPage]
  | succ fuel ih =>
      intro startTs page batch h1 h2
      have happ : apiPage db cfg.batch_size startTs endTs
          = ((inRange db startTs endTs).take cfg.batch_size,
             decide (cfg.batch_size < (inRange db startTs endTs).length)) := rfl
      by_cases hI : inRange db startTs endTs = []
      · have htds : (inRange db startTs endTs).take cfg.batch_size = [] := by
          rw [hI, List.take_nil]
        rw [fetchLoop, happ]
        simp only [htds]
        rw [hI]
        by_cases hb : batch = []
        · subst hb; simp [processPage]
        · simp [hb, processPage]
      · have htds : (inRange db startTs endTs).take cfg.batch_size ≠ [] := by
          rw [Ne, List.take_eq_nil_iff]
          push_neg
          exact ⟨by omega, hI⟩
        rw [fetchLoop, happ]
        by_cases hmore : cfg.batch_size < (inRange db startTs endTs).length
        · -- has_more: the loop recurses on the remaining range
          have hadv : inRange db
              (rts (lastRaw ((inRange db startTs endTs).take cfg.batch_size)) + 1)
              endTs = (inRange db startTs endTs).drop cfg.batch_size :=
            inRange_advance db startTs endTs cfg.batch_size hdb hcnt hmore
          obtain ⟨k, hk⟩ : ∃ k, cfg.max_pages - page = k + 2 := by
            have hz : cfg.max_pages - page ≠ 0 := by
              intro h0
              rw [h0, Nat.mul_zero] at h2
              omega
            have ho : cfg.max_pages - page ≠ 1 := by
              intro h0
              rw [h0, Nat.mul_one] at h2
              omega
            exact ⟨cfg.max_pages - page - 2, by omega⟩
          have hpage : ¬ cfg.max_pages < page + 1 := by omega
          have hdroplen : ((inRange db startTs endTs).drop cfg.batch_size).length
              = (inRange db startTs endTs).length - cfg.batch_size :=
            List.length_drop _ _
          have hrec1 : (inRange db
              (rts (lastRaw ((inRange db startTs endTs).take cfg.batch_size)) + 1)
              endTs).length ≤ cfg.batch_size * fuel := by
            rw [hadv, hdroplen]
            rw [Nat.mul_succ] at h1
            omega
          have hrec2 : (inRange db
              (rts (lastRaw ((inRange db startTs endTs).take cfg.batch_size)) + 1)
              endTs).length ≤ cfg.batch_size * (cfg.max_pages - (page + 1)) := by
            rw [hadv, hdroplen]
            have hke : cfg.max_pages - (page + 1) = k + 1 := by omega
            rw [hke]
            rw [show cfg.max_pages - page = k + 2 from hk, Nat.mul_succ,
              Nat.mul_succ] at h2
            rw [Nat.mul_succ]
            omega
          have hsplitPP : processPage (inRange db startTs endTs)
              = processPage ((inRange db startTs endTs).take cfg.batch_size)
                ++ processPage ((inRange db startTs endTs).drop cfg.batch_size) := by
            rw [processPage, processPage, processPage, ← List.filterMap_append,
              List.take_append_drop]
          simp only [htds, decide_eq_true_eq,
            hmore, decide_True, if_true, if_neg hpage, Ne]
          rw [if_neg not_false]
          by_cases hflush : (page + 1) % cfg.flush_every_pages = 0 ∧
              ¬ batch ++ processPage
                ((inRange db startTs endTs).take cfg.batch_size) = []
          · simp only [if_pos hflush, List.flatten_append]
            rw [ih _ (page + 1) [] hrec1 hrec2, hadv]
            rw [hsplitPP]
            simp
          · simp only [if_neg hflush, List.flatten_append]
            rw [ih _ (page + 1) _ hrec1 hrec2, hadv]
            rw [hsplitPP]
            simp
        · -- final page: the whole remaining range fits in this page
          have htake : (inRange db startTs endTs).take cfg.batch_size
              = inRange db startTs endTs :=
            List.take_of_length_le (by omega)
          simp only [htds, decide_eq_true_eq, hmore, htake, Ne]
          rw [if_neg hI, if_neg not_false, ite_self]
          by_cases hflush : (page + 1) % cfg.flush_every_pages = 0 ∧
              ¬ batch ++ processPage (inRange db startTs endTs) = []
          · simp only [if_pos hflush]
            simp
          · simp only [if_neg hflush]
            by_cases hb1 : batch ++ processPage (inRange db startTs endTs) = []
            · simp only [hb1]
              simp
            · simp [hb1]

end DeribitData


namespace DeribitData

theorem groupOfDay_append (l1 l2 : List OptionTrade) (d : Nat) :
    groupOfDay (l1 ++ l2) d = groupOfDay l1 d ++ groupOfDay l2 d := by
  rw [groupOfDay, groupOfDay, groupOfDay, List.filter_append]

theorem nodup_idsOf_groupOfDay (l : List OptionTrade) (d : Nat)
    (h : (idsOf l).Nodup) : (idsOf (groupOfDay l d)).Nodup :=
  ((List.filter_sublist l).map OptionTrade.trade_id).nodup h

/-- Invariant of the save loop: with globally distinct trade identifiers,
each day partition stays a permutation of the saved records of that day. -/
theorem saveBatches_partition_aux (cur : String) :
    ∀ (bs : List (List OptionTrade)) (s : Store) (acc : List OptionTrade),
      (idsOf (acc ++ bs.flatten)).Nodup →
      (∀ d, List.Perm (partList s (cur, d)) (groupOfDay acc d)
         ∧ (groupOfDay acc d ≠ [] → (s.getPart (cur, d)).isSome = true)) →
      ∀ d, List.Perm (partList (saveBatches s bs cur) (cur, d))
              (groupOfDay (acc ++ bs.flatten) d)
         ∧ (groupOfDay (acc ++ bs.flatten) d ≠ [] →
              ((saveBatches s bs cur).getPart (cur, d)).isSome = true) := by
  intro bs
  induction bs with
  | nil =>
      intro s acc hnd hinv d
      simpa [saveBatches] using hinv d
  | cons b bs ih =>
      intro s acc hnd hinv d
      have hassoc : acc ++ (b :: bs).flatten = (acc ++ b) ++ bs.flatten := by
        simp [List.flatten_cons, List.append_assoc]
      have hnd' : (idsOf ((acc ++ b) ++ bs.flatten)).Nodup := by
        rw [← hassoc]; exact hnd
      have hndab : (idsOf (acc ++ b)).Nodup := by
        have hsub : List.Sublist (acc ++ b) ((acc ++ b) ++ bs.flatten) :=
          List.sublist_append_left _ _
        exact (hsub.map OptionTrade.trade_id).nodup hnd'
      have hstep : saveBatches s (b :: bs) cur
          = saveBatches (save_trades s b cur) bs cur := rfl
      have hinv' : ∀ d, List.Perm (partList (save_trades s b cur) (cur, d))
            (groupOfDay (acc ++ b) d)
          ∧ (groupOfDay (acc ++ b) d ≠ [] →
              ((save_trades s b cur).getPart (cur, d)).isSome = true) := by
        intro d
        rcases hinv d with ⟨hperm, hsome⟩
        rw [groupOfDay_append]
        by_cases hgb : groupOfDay b d = []
        · rw [hgb, List.append_nil]
          constructor
          · rw [partList, getPart_save_trades, if_pos hgb]
            exact hperm
          · intro hne
            rw [getPart_save_trades, if_pos hgb]
            exact hsome hne
        · have hs' : (save_trades s b cur).getPart (cur, d)
              = some (mergedContent (s.getPart (cur, d)) (groupOfDay b d)) := by
            rw [getPart_save_trades, if_neg hgb]
          refine ⟨?_, fun _ => by rw [hs']; rfl⟩
          rw [partList, hs', Option.getD_some]
          cases hsp : s.getPart (cur, d) with
          | none =>
              have hacc : groupOfDay acc d = [] := by
                have : partList s (cur, d) = [] := by rw [partList, hsp]; rfl
                rw [this] at hperm
                exact (hperm.symm).eq_nil
              rw [hacc, List.nil_append]
              exact List.Perm.refl _
          | some ex =>
              have hex : List.Perm ex (groupOfDay acc d) := by
                have : partList s (cur, d) = ex := by rw [partList, hsp]; rfl
                rw [this] at hperm
                exact hperm
              have hpermcat : List.Perm (ex ++ groupOfDay b d)
                  (groupOfDay acc d ++ groupOfDay b d) :=
                hex.append_right _
              have hndcat : (idsOf (ex ++ groupOfDay b d)).Nodup := by
                have hnd2 : (idsOf (groupOfDay acc d ++ groupOfDay b d)).Nodup := by
                  rw [← groupOfDay_append]
                  exact nodup_idsOf_groupOfDay _ _ hndab
                exact ((hpermcat.map OptionTrade.trade_id).nodup_iff).2 hnd2
              have hdd : dedupKeepLast (ex ++ groupOfDay b d)
                  = ex ++ groupOfDay b d := dedupKeepLast_eq_self _ hndcat
              show List.Perm (sortByTs (dedupKeepLast (ex ++ groupOfDay b d)))
                (groupOfDay acc d ++ groupOfDay b d)
              rw [hdd]
              exact (sortByTs_perm _).trans hpermcat
      rw [hstep]
      have := ih (save_trades s b cur) (acc ++ b) (by rw [← hassoc]; exact hnd)
        hinv' d
      rw [hassoc]
      exact this

end DeribitData

namespace DeribitData

theorem saveBatches_partition (cur : String) (bs : List (List OptionTrade))
    (hnd : (idsOf bs.flatten).Nodup) (d : Nat) :
    List.Perm (partList (saveBatches [] bs cur) (cur, d))
      (groupOfDay bs.flatten d) := by
  have h := saveBatches_partition_aux cur bs [] []
    (by rw [List.nil_append]; exact hnd)
    (by
      intro d
      refine ⟨?_, ?_⟩
      · exact List.Perm.refl _
      · intro hne
        exact absurd rfl hne)
    d
  rw [List.nil_append] at h
  exact h.1

/-- C2 (amended).  With a strictly ascending response stream whose parsed
records carry distinct trade identifiers, and a page budget covering the
range: stopping a fetch after its first `j` yields, checkpointing the last
yielded trade's timestamp (which exceeds the range start), and running a
second call resumed from that checkpoint stores — after `save_trades` of all
yielded batches — partitions with exactly the same record count and the same
trade identifiers as the single uninterrupted fetch. -/
theorem fetch_resume_equivalence (cfg : FetchConfig) (db : List RawTrade)
    (cur : String) (startTs endTs j : Nat) (tl : OptionTrade)
    (hdb : db.Pairwise (fun a b => rts a < rts b))
    (hcnt : 0 < cfg.batch_size)
    (hcap : (inRange db startTs endTs).length
      ≤ cfg.batch_size * cfg.max_pages)
    (hids : (idsOf (processPage (inRange db startTs endTs))).Nodup)
    (hlast : (((fetch_trades_streaming cfg db startTs endTs none).take
        j).flatten).getLast? = some tl)
    (hstart : startTs < tl.timestampMs) :
    ∀ d : Nat,
      (partList (saveBatches []
          (fetch_trades_streaming cfg db startTs endTs none) cur)
          (cur, d)).length
        = (partList (saveBatches []
            ((fetch_trades_streaming cfg db startTs endTs none).take j
              ++ fetch_trades_streaming cfg db startTs endTs
                  (some tl.timestampMs)) cur) (cur, d)).length
      ∧ ∀ i : String,
          i ∈ idsOf (partList (saveBatches []
              (fetch_trades_streaming cfg db startTs endTs none) cur) (cur, d))
          ↔ i ∈ idsOf (partList (saveBatches []
              ((fetch_trades_streaming cfg db startTs endTs none).take j
                ++ fetch_trades_streaming cfg db startTs endTs
                    (some tl.timestampMs)) cur) (cur, d)) := by
  have hfuel1 : (inRange db startTs endTs).length
      ≤ cfg.batch_size * (cfg.max_pages + 2) :=
    le_trans hcap (Nat.mul_le_mul_left _ (by omega))
  have hYjoin : (fetch_trades_streaming cfg db startTs endTs none).flatten
      = processPage (inRange db startTs endTs) := by
    have h := fetchLoop_join cfg db endTs hdb hcnt (cfg.max_pages + 2)
      startTs 0 [] hfuel1 (by simpa using hcap)
    rw [List.nil_append] at h
    exact h
  have hPfx : processPage (inRange db startTs endTs)
      = ((fetch_trades_streaming cfg db startTs endTs none).take j).flatten
        ++ ((fetch_trades_streaming cfg db startTs endTs none).drop j).flatten := by
    rw [← List.flatten_append, List.take_append_drop, hYjoin]
  have hPtake : (processPage (inRange db startTs endTs)).take
      (((fetch_trades_streaming cfg db startTs endTs none).take j).flatten).length
      = ((fetch_trades_streaming cfg db startTs endTs none).take j).flatten := by
    rw [hPfx, List.take_left]
  have hPne : ((fetch_trades_streaming cfg db startTs endTs none).take
      j).flatten ≠ [] := by
    intro hc
    rw [hc] at hlast
    simp at hlast
  have hm1 : 1 ≤ (((fetch_trades_streaming cfg db startTs endTs
      none).take j).flatten).length := by
    rcases List.exists_cons_of_ne_nil hPne with ⟨y, ys, hy⟩
    rw [hy]
    simp
  have hlastL : ((processPage (inRange db startTs endTs)).take
      (((fetch_trades_streaming cfg db startTs endTs none).take
        j).flatten).length).getLast? = some tl := by
    rw [hPtake]
    exact hlast
  have hY2 : fetch_trades_streaming cfg db startTs endTs (some tl.timestampMs)
      = fetchLoop cfg db endTs (cfg.max_pages + 2) (tl.timestampMs + 1) 0 [] := by
    rw [fetch_trades_streaming]
    rw [if_pos ⟨by omega, hstart⟩]
  have hI2 : inRange db (tl.timestampMs + 1) endTs
      = (inRange db startTs endTs).filter
          (fun r => decide (tl.timestampMs < rts r)) := by
    rw [inRange, inRange, List.filter_filter]
    refine List.filter_congr ?_
    intro a _
    rw [Bool.eq_iff_iff, Bool.and_eq_true, Bool.and_eq_true, Bool.and_eq_true]
    simp only [decide_eq_true_eq]
    omega
  have hI2len : (inRange db (tl.timestampMs + 1) endTs).length
      ≤ (inRange db startTs endTs).length := by
    rw [hI2]
    exact List.length_filter_le _ _
  have hY2join : (fetch_trades_streaming cfg db startTs endTs
      (some tl.timestampMs)).flatten
      = (processPage (inRange db startTs endTs)).drop
          (((fetch_trades_streaming cfg db startTs endTs none).take
            j).flatten).length := by
    rw [hY2]
    have h := fetchLoop_join cfg db endTs hdb hcnt (cfg.max_pages + 2)
      (tl.timestampMs + 1) 0 [] (le_trans hI2len hfuel1)
      (by simpa using le_trans hI2len hcap)
    rw [List.nil_append] at h
    rw [h, hI2]
    exact processPage_filter_gt (inRange db startTs endTs)
      (inRange_pairwise db startTs endTs hdb) _ tl hm1 hlastL
  have hcombined : (((fetch_trades_streaming cfg db startTs endTs none).take j)
      ++ fetch_trades_streaming cfg db startTs endTs
          (some tl.timestampMs)).flatten
      = processPage (inRange db startTs endTs) := by
    rw [List.flatten_append, hY2join]
    conv_rhs => rw [← List.take_append_drop
      ((((fetch_trades_streaming cfg db startTs endTs none).take
        j).flatten).length) (processPage (inRange db startTs endTs))]
    rw [hPtake]
  intro d
  have h1 := saveBatches_partition cur
    (fetch_trades_streaming cfg db startTs endTs none)
    (by rw [hYjoin]; exact hids) d
  rw [hYjoin] at h1
  have h2 := saveBatches_partition cur
    ((fetch_trades_streaming cfg db startTs endTs none).take j
      ++ fetch_trades_streaming cfg db startTs endTs (some tl.timestampMs))
    (by rw [hcombined]; exact hids) d
  rw [hcombined] at h2
  have hp := h1.trans h2.symm
  exact ⟨hp.length_eq,
    fun i => (hp.map OptionTrade.trade_id).mem_iff⟩

end DeribitData

namespace DeribitData

/-- Raw records used by the streaming witnesses: one currency's response
stream with strictly ascending timestamps and distinct trade identifiers. -/
def dRaw (id : String) (ts : Nat) : RawTrade :=
  { instrument_name := some "ETH-1JAN25-3000-P", trade_id := some id,
    timestamp := some ts, price := some 5, amount := some 2,
    direction := some "buy" }

def dbC : List RawTrade := [dRaw "a" 1000, dRaw "b" 2000]

/-- A configuration whose `max_pages` safety ceiling truncates the fetch:
page size 1, page limit 0, flush every page. -/
def cfgC : FetchConfig := ⟨1, 0, 1⟩

/-- C2 counterexample.  As stated — over every deterministic response
stream — resume equivalence is false: when the single uninterrupted fetch
hits the `max_pages` safety ceiling it stores one record, while stopping
after the first yield (checkpoint timestamp 1000, the last yielded trade)
and resuming gives the second call a fresh page budget, which fetches the
record the single run dropped — the two stored sets differ in count. -/
theorem fetch_resume_counterexample :
    ((fetch_trades_streaming cfgC dbC 1 100000 none).take
        1).flatten.getLast?.map OptionTrade.timestampMs = some 1000
    ∧ (partList (saveBatches []
        (fetch_trades_streaming cfgC dbC 1 100000 none) "BTC")
        ("BTC", 0)).length = 1
    ∧ (partList (saveBatches []
        ((fetch_trades_streaming cfgC dbC 1 100000 none).take 1
          ++ fetch_trades_streaming cfgC dbC 1 100000 (some 1000)) "BTC")
        ("BTC", 0)).length = 2 := by
  refine ⟨by decide, by decide, by decide⟩

def dbW : List RawTrade := [dRaw "a" 1000, dRaw "b" 2000, dRaw "c" 3000]

def cfgW : FetchConfig := ⟨2, 5, 1⟩

/-- The parsed trade checkpointed by the C2 witness (the last trade of the
first yielded batch). -/
def wTb : OptionTrade :=
  { trade_id := "b", instrument_id := "ETH-1JAN25-3000-P",
    timestampMs := 2000, price := 5, iv := none, amount := 2,
    direction := .buy, underlying := "ETH", strike := 3000,
    expiry := (2025, 1, 1), option_type := .put,
    index_price := none, mark_price := none }

theorem fetch_resume_equivalence_witness :
    ((((fetch_trades_streaming cfgW dbW 1 100000 none).take
        1).flatten).getLast? = some wTb
      ∧ (idsOf (processPage (inRange dbW 1 100000))).Nodup)
    ∧ ((partList (saveBatches []
          (fetch_trades_streaming cfgW dbW 1 100000 none) "ETH")
          ("ETH", 0)).length
        = (partList (saveBatches []
            ((fetch_trades_streaming cfgW dbW 1 100000 none).take 1
              ++ fetch_trades_streaming cfgW dbW 1 100000
                  (some wTb.timestampMs)) "ETH") ("ETH", 0)).length
      ∧ ∀ i : String,
          i ∈ idsOf (partList (saveBatches []
              (fetch_trades_streaming cfgW dbW 1 100000 none) "ETH") ("ETH", 0))
          ↔ i ∈ idsOf (partList (saveBatches []
              ((fetch_trades_streaming cfgW dbW 1 100000 none).take 1
                ++ fetch_trades_streaming cfgW dbW 1 100000
                    (some wTb.timestampMs)) "ETH") ("ETH", 0))) :=
  ⟨⟨by decide, by decide⟩,
   fetch_resume_equivalence cfgW dbW "ETH" 1 100000 1 wTb (by decide)
     (by decide) (by decide) (by decide) (by decide) (by decide) 0⟩

end DeribitData
